import Mathlib

/-
Verification of the luna SSH-config preprocessor.

The development shallowly embeds the Python sources (moon/syn.py,
moon/route.py, moon/env.py, cfg.py, luna.py) as executable Lean
definitions and proves or refutes the specification claims about them.
Machine integers do not overflow in the modelled code paths, so Nat/Int
are used directly.
-/

namespace Luna

/-! ## Character and string helpers (Python str semantics) -/

/-- Whitespace characters recognised by Python's shlex and str.strip. -/
def isPyWs (c : Char) : Bool :=
  c = ' ' || c = '\t' || c = '\r' || c = '\n' || c = '\x0c' || c = '\x0b'

/-- Python str.rstrip() on a character list. -/
def rstripChars (s : List Char) : List Char :=
  (s.reverse.dropWhile isPyWs).reverse

/-- Python str.rstrip() on a string. -/
def pyRstrip (s : String) : String :=
  String.mk (rstripChars s.toList)

/-- Truthiness of Python str.lstrip(): the line has a non-whitespace char. -/
def hasNonWs (s : String) : Bool :=
  s.toList.any (fun c => !(isPyWs c))

/-- Python str.lower restricted to ASCII, as used for option names. -/
def pyLower (s : String) : String :=
  String.mk (s.toList.map Char.toLower)

/-- Python s[0] == ch test on a possibly empty string (an empty string
cannot occur for a shell token). -/
def headIs (s : String) (ch : Char) : Bool :=
  match s.toList with
  | c :: _ => c = ch
  | [] => false

/-- Python str.find(ch): index of the first occurrence, or none. -/
def pyFind (s : String) (ch : Char) : Option Nat :=
  s.toList.findIdx? (· = ch)

/-- Python slice s[:n] over code points. -/
def pyTake (s : String) (n : Nat) : String :=
  String.mk (s.toList.take n)

/-- Python slice s[n:] over code points. -/
def pyDrop (s : String) (n : Nat) : String :=
  String.mk (s.toList.drop n)

/-! ## Model of Python shlex (POSIX mode, comments enabled, whitespace split)

Modelled from the Python standard library (shlex.split with
comments=True, posix=True): whitespace separates tokens, single quotes
are literal spans, double quotes allow backslash-escaping of the double
quote and the backslash itself, a backslash outside quotes escapes the
next character, and an unquoted # discards the rest of the line.  The
stdlib raises ValueError on an unterminated quote or trailing escape;
the model flushes the partial token instead (no modelled input is
malformed). -/

inductive LexState where
  | ws : LexState
  | word : LexState
  | squote : LexState
  | dquote : LexState
  | esc : LexState
  | dqesc : LexState
  | comment : LexState
deriving Repr, DecidableEq

/-- One shlex token accumulation step machine over the input characters.
`cur` is the reversed current token, `started` records that a token has
begun (so that quoted empty strings produce a token). -/
def shlexGo : LexState → List Char → Bool → List Char → List (List Char)
  | _, cur, started, [] =>
      if started then [cur.reverse] else []
  | .ws, _, _, c :: rest =>
      if isPyWs c then shlexGo .ws [] false rest
      else if c = '#' then shlexGo .comment [] false rest
      else if c = '\'' then shlexGo .squote [] true rest
      else if c = '"' then shlexGo .dquote [] true rest
      else if c = '\\' then shlexGo .esc [] true rest
      else shlexGo .word [c] true rest
  | .word, cur, _, c :: rest =>
      if isPyWs c then cur.reverse :: shlexGo .ws [] false rest
      else if c = '#' then cur.reverse :: shlexGo .comment [] false rest
      else if c = '\'' then shlexGo .squote cur true rest
      else if c = '"' then shlexGo .dquote cur true rest
      else if c = '\\' then shlexGo .esc cur true rest
      else shlexGo .word (c :: cur) true rest
  | .squote, cur, _, c :: rest =>
      if c = '\'' then shlexGo .word cur true rest
      else shlexGo .squote (c :: cur) true rest
  | .dquote, cur, _, c :: rest =>
      if c = '"' then shlexGo .word cur true rest
      else if c = '\\' then shlexGo .dqesc cur true rest
      else shlexGo .dquote (c :: cur) true rest
  | .esc, cur, _, c :: rest =>
      shlexGo .word (c :: cur) true rest
  | .dqesc, cur, _, c :: rest =>
      if c = '"' || c = '\\' then shlexGo .dquote (c :: cur) true rest
      else shlexGo .dquote (c :: '\\' :: cur) true rest
  | .comment, _, _, c :: rest =>
      if c = '\n' then shlexGo .ws [] false rest
      else shlexGo .comment [] false rest

/-- shlex.split(line, comments=True). -/
def shlexSplit (s : String) : List String :=
  (shlexGo .ws [] false s.toList).map String.mk

/-- Characters shlex.join leaves unquoted (shlex._find_unsafe). -/
def shlexSafe (c : Char) : Bool :=
  c.isAlphanum || c = '@' || c = '%' || c = '+' || c = '=' || c = ':'
    || c = ',' || c = '.' || c = '/' || c = '-' || c = '_'

/-- shlex.quote on one token. -/
def shlexQuote (s : String) : String :=
  if s = "" then "\x27\x27"
  else if s.toList.all shlexSafe then s
  else
    "\x27" ++ String.mk (s.toList.flatMap
      (fun c => if c = '\'' then "\x27\"\x27\"\x27".toList else [c])) ++ "\x27"

/-- shlex.join over tokens. -/
def shlexJoin (ts : List String) : String :=
  String.intercalate " " (ts.map shlexQuote)

/-! ## Model of Python fnmatch (POSIX: no case folding)

Modelled from the standard library fnmatch.fnmatch: * matches any
sequence, ? any single character, [seq] a character class with optional
leading ! negation and a-b ranges. -/

/-- Expand a character class body into its member test, honouring
ranges.  Returns the predicate result for `c`. -/
def classMatch (body : List Char) (c : Char) : Bool :=
  match body with
  | a :: '-' :: b :: rest =>
      if rest = [] && b = ']' then a = c || '-' = c || b = c
      else (a ≤ c && c ≤ b) || classMatch rest c
  | a :: rest => a = c || classMatch rest c
  | [] => false

/-- Split a class body at the closing bracket: fnmatch treats a leading
] as literal.  Returns (body, rest-of-pattern). -/
def splitClass : List Char → Option (List Char × List Char)
  | [] => none
  | c :: rest =>
      if c = ']' then some ([], rest)
      else match splitClass rest with
        | some (body, rem) => some (c :: body, rem)
        | none => none

/-- Glob matching of pattern against string (fnmatch core), driven by
explicit fuel so that it evaluates by kernel reduction.  Every step
strictly decreases pattern length + string length (a class consumes at
least the closing bracket), so the initial fuel in globMatch below is
never exhausted. -/
def globMatchF : Nat → List Char → List Char → Bool
  | 0, _, _ => false
  | fuel + 1, p, s =>
      match p, s with
      | [], [] => true
      | [], _ :: _ => false
      | '*' :: ps, s =>
          globMatchF fuel ps s ||
            (match s with
             | [] => false
             | _ :: s2 => globMatchF fuel ('*' :: ps) s2)
      | '?' :: ps, s =>
          (match s with
           | [] => false
           | _ :: s2 => globMatchF fuel ps s2)
      | '[' :: ps, s =>
          (match splitClass ps with
           | some (body, rem) =>
              (match s with
               | [] => false
               | c :: s2 =>
                  (match body with
                   | '!' :: body2 => !(classMatch body2 c)
                   | _ => classMatch body c) && globMatchF fuel rem s2)
           | none =>
              -- malformed class: fnmatch treats the [ literally
              (match s with
               | [] => false
               | c :: s2 => c = '[' && globMatchF fuel ps s2))
      | p0 :: ps, s =>
          (match s with
           | [] => false
           | c :: s2 => p0 = c && globMatchF fuel ps s2)

def globMatch (p s : List Char) : Bool :=
  globMatchF (p.length + s.length + 1) p s

/-- fnmatch.fnmatch (POSIX normcase is the identity). -/
def fnmatch (name pattern : String) : Bool :=
  globMatch pattern.toList name.toList

/-! ## Directive (moon/syn.py) -/

/-- A parsed configuration directive: the raw option token (before
lowercasing) and the argument values. -/
structure Directive where
  opt0 : String
  values : List String
deriving Repr, DecidableEq

/-- The lowercased option name (the Directive.opt property). -/
def Directive.opt (d : Directive) : String := pyLower d.opt0

/-- Directive.__init__: shell-split the line; when the first token
contains =, truncate the option at it and splice in the shell tokens of
the slice the code takes — which is `opt[p+1:]` taken AFTER `opt` was
reassigned to `opt[:p]`, hence always the empty string. -/
def parseDirective (line : String) : Directive :=
  match shlexSplit line with
  | [] => ⟨"", []⟩
  | p0 :: rest =>
      match pyFind p0 '=' with
      | some p =>
          let opt := pyTake p0 p
          ⟨opt, shlexSplit (pyDrop opt (p + 1)) ++ rest⟩
      | none => ⟨p0, rest⟩

/-- Directive.__str__ rendering. -/
def directiveStr (d : Directive) : String :=
  d.opt0 ++ " " ++ shlexJoin d.values

/-- Directive truthiness: bool(d) iff the option name is non-empty. -/
def Directive.toBool (d : Directive) : Bool := d.opt ≠ ""

/-- Python Directive equality / hash key: (lowercased opt, values). -/
def dirKey (d : Directive) : String × List String := (d.opt, d.values)

/-! ## Block and Config (moon/syn.py)

Python Blocks are mutable objects shared between several indices; the
embedding stores them in an association list keyed by the global
ordinal `no` (object identity) and keeps the indices as lists of
ordinals. -/

/-- A Line object: a rendered string carrying a back-reference to its
source block and the parsed directive. -/
structure Line where
  s : String
  blkNo : Nat
  dir : Directive
deriving Repr, DecidableEq

/-- A stored block payload line: either a raw string or a Line with
provenance. -/
inductive BlkLine where
  | raw : String → BlkLine
  | lin : Line → BlkLine
deriving Repr, DecidableEq

/-- The string value of a payload line (Line subclasses str). -/
def blkLineStr : BlkLine → String
  | .raw s => s
  | .lin l => l.s

structure Block where
  no : Nat
  header : String
  hosts : List String
  lines : List BlkLine
  ext : Bool
  comment : String
deriving Repr, DecidableEq

instance : Inhabited Block := ⟨⟨0, "", [], [], false, ""⟩⟩

/-- Block.test body: accumulate positive hits, abort on a negated hit. -/
def testGo (host : String) : List String → Bool → Bool
  | [], hit => hit
  | p :: ps, hit =>
      if headIs p '!' then
        if fnmatch host (pyDrop p 1) then false else testGo host ps hit
      else testGo host ps (hit || fnmatch host p)

/-- Block.test. -/
def Block.test (b : Block) (host : String) : Bool :=
  testGo host b.hosts false

/-- Block.trimmed: parse raw payload lines, drop empty directives, keep
Line objects as they are. -/
def Block.trimmed (b : Block) : List Line :=
  b.lines.filterMap fun
    | .raw s =>
        let d := parseDirective s
        if d.opt ≠ "" then some ⟨directiveStr d, b.no, d⟩ else none
    | .lin l => some l

structure Config where
  store : List (Nat × Block)
  host_map : List (String × List Nat)
  wildcards : List Nat
  blks : List Nat
  ext_blks : List Nat
  ext_cache : List (List String × Nat)
  next_no : Nat
deriving Repr, DecidableEq

/-- First-match association lookup (Python dict access). -/
def alookup {α β : Type} [DecidableEq α] : List (α × β) → α → Option β
  | [], _ => none
  | (k, v) :: rest, a => if k = a then some v else alookup rest a

/-- Resolve a block ordinal to its Block. -/
def getBlk (c : Config) (no : Nat) : Block :=
  (alookup c.store no).getD default

/-- Write back a mutated Block under its ordinal. -/
def updateStore (st : List (Nat × Block)) (no : Nat) (b : Block) :
    List (Nat × Block) :=
  st.map (fun kv => if kv.1 = no then (kv.1, b) else kv)

/-- defaultdict(list) append: self._host_map[host].append(blk). -/
def hmAppend : List (String × List Nat) → String → Nat → List (String × List Nat)
  | [], host, no => [(host, [no])]
  | (k, v) :: rest, host, no =>
      if k = host then (k, v ++ [no]) :: rest
      else (k, v) :: hmAppend rest host no

/-- add_host host-map update: `if old := map.get(host): old.append(blk)
else: map[host] = [blk]` — a present-but-empty list is replaced. -/
def hmAppendOrSet : List (String × List Nat) → String → Nat → List (String × List Nat)
  | [], host, no => [(host, [no])]
  | (k, v) :: rest, host, no =>
      if k = host then
        (if v ≠ [] then (k, v ++ [no]) :: rest else (k, [no]) :: rest)
      else (k, v) :: hmAppendOrSet rest host no

/-- One pattern-indexing step of _push_blk. -/
def pushIndex (no : Nat) (c : Config) (host : String) : Config :=
  if !headIs host '!' then
    if host.toList.contains '*' then
      {c with wildcards := c.wildcards ++ [no]}
    else {c with host_map := hmAppend c.host_map host no}
  else c

/-- Config._push_blk.  The source initialises `has_wildcards` inside the
per-pattern loop, so the guard never fires and every wildcard pattern
appends the block to the wildcard list again; the model preserves
this. -/
def push_blk (c : Config) (b : Block) (ext : Bool) : Config :=
  let c1 :=
    if ext then {c with ext_blks := c.ext_blks ++ [b.no]}
    else {c with blks := c.blks ++ [b.no]}
  b.hosts.foldl (pushIndex b.no) c1

/-- Allocate a fresh Block (the Python global blk_no counter is modelled
per Config). -/
def mkBlock (c : Config) (header : String) (hosts : List String)
    (ext : Bool) (comment : String) : Config × Block :=
  let b : Block := ⟨c.next_no, header, hosts, [], ext, comment⟩
  ({c with next_no := c.next_no + 1}, b)

/-- Insert a finished block into the store and index it (the parse-time
flush). -/
def flushBlk (c : Config) (cur : Block) : Config :=
  push_blk {c with store := c.store ++ [(cur.no, cur)]} cur false

/-- Config.__init__ main loop over input lines. -/
def parseGo (c : Config) (cur : Block) : List String → Config
  | [] => flushBlk c cur
  | line :: rest =>
      let line := pyRstrip line
      let d := parseDirective line
      if d.opt = "host" then
        let c2 := flushBlk c cur
        let p := mkBlock c2 line d.values false ""
        parseGo p.1 p.2 rest
      else if d.opt = "match" then
        let c2 := flushBlk c cur
        let p := mkBlock c2 line [] false ""
        parseGo p.1 p.2 rest
      else if hasNonWs line then
        parseGo c {cur with lines := cur.lines ++ [.raw line]} rest
      else parseGo c cur rest

/-- Config.__init__: parse a document given as a list of lines. -/
def parseConfig (input : List String) : Config :=
  let c0 : Config := ⟨[], [], [], [], [], [], 0⟩
  let p := mkBlock c0 "" ["*"] false ""
  let c2 := parseGo p.1 p.2 input
  let db := getBlk c2 p.2.no
  let db2 : Block := {db with header := "Host *  # Default"}
  if db.lines ≠ [] then
    {c2 with store := updateStore c2.store p.2.no db2}
  else c2

/-! ### Effective-directive query (Config._query / Config.query) -/

/-- The two accumulative options that bypass first-occurrence dedup. -/
def accumOpt (opt : String) : Bool :=
  opt = "identityfile" || opt = "certificatefile"

/-- The set of blocks matching a host: exact-map entries plus wildcard
blocks passing Block.test. -/
def matchedNos (c : Config) (host : String) : List Nat :=
  ((alookup c.host_map host).getD []
    ++ c.wildcards.filter (fun no => (getBlk c no).test host)).dedup

/-- Sort key used in _query: extended blocks first, then ascending
ordinal. -/
def blkKey (c : Config) (no : Nat) : Nat × Nat :=
  (if (getBlk c no).ext then 0 else 1, no)

/-- Lexicographic order on Nat pairs (Python tuple comparison). -/
def keyLe (a b : Nat × Nat) : Bool :=
  a.1 < b.1 || (a.1 = b.1 && a.2 ≤ b.2)

/-- Stable insertion into a sorted list (models the stability of Python
sorted). -/
def ordIns {α : Type} (le : α → α → Bool) (a : α) : List α → List α
  | [] => [a]
  | b :: l => if le a b then a :: b :: l else b :: ordIns le a l

/-- Stable insertion sort. -/
def insSort {α : Type} (le : α → α → Bool) : List α → List α
  | [] => []
  | a :: l => ordIns le a (insSort le l)

/-- The matched blocks in walk order (ext first, ascending ordinal). -/
def sortedMatched (c : Config) (host : String) : List Nat :=
  insSort (fun n1 n2 => keyLe (blkKey c n1) (blkKey c n2))
    (matchedNos c host)

/-- The concatenated trimmed directive stream of the walked blocks. -/
def stream (c : Config) (host : String) : List Line :=
  (sortedMatched c host).flatMap (fun no => (getBlk c no).trimmed)

/-- The first-occurrence dedup walk of _query, threading the `vis` set
of already-yielded non-accumulative option names.  Returns the yielded
lines and the final vis contents. -/
def dedupWalk : List String → List Line → List Line × List String
  | vis, [] => ([], vis)
  | vis, l :: rest =>
      if accumOpt l.dir.opt then
        ((dedupWalk vis rest).1.cons l, (dedupWalk vis rest).2)
      else if l.dir.opt ∈ vis then dedupWalk vis rest
      else ((dedupWalk (l.dir.opt :: vis) rest).1.cons l,
            (dedupWalk (l.dir.opt :: vis) rest).2)

/-- Config._query output. -/
def queryRaw (c : Config) (host : String) : List Line :=
  (dedupWalk [] (stream c host)).1

/-- Config._query_opts after a completed _query(host) run. -/
def visOf (c : Config) (host : String) : List String :=
  (dedupWalk [] (stream c host)).2

/-- Sort key of Config.query: original blocks first, then ascending
ordinal. -/
def lineKey (c : Config) (l : Line) : Nat × Nat :=
  (if (getBlk c l.blkNo).ext then 1 else 0, l.blkNo)

/-- Config.query: the _query yield re-sorted to original-first order. -/
def query (c : Config) (host : String) : List Line :=
  insSort (fun a b => keyLe (lineKey c a) (lineKey c b)) (queryRaw c host)

/-- The set of (opt, values) pairs of a directive line list. -/
def dirFinset (ls : List Line) : Finset (String × List String) :=
  (ls.map (fun l => dirKey l.dir)).toFinset

/-! ### add_host and attach -/

/-- The comment merge of add_host on a cache hit. -/
def commentMerge (blk : Block) (comment : String) : Block :=
  if comment ≠ "" then
    if blk.comment ≠ "" ∧ blk.comment ≠ comment then
      {blk with comment := blk.comment ++ "; " ++ comment}
    else {blk with comment := comment}
  else blk

/-- The block state after the hit branch ran: merged comment and
extended hosts/header. -/
def addHostHitBlk (c : Config) (no : Nat) (hosts : List String)
    (comment : String) : Block :=
  let blk1 := commentMerge (getBlk c no) comment
  let newHosts := hosts.filter (fun h => h ∉ blk1.hosts)
  if newHosts ≠ [] then
    {blk1 with
      header := blk1.header ++ " " ++ String.intercalate " " newHosts,
      hosts := blk1.hosts ++ newHosts}
  else blk1

/-- The cache-hit branch of add_host: merge the comment, extend the
header, hosts and exact-host map with the patterns not yet listed. -/
def addHostHit (c : Config) (no : Nat) (hosts : List String)
    (comment : String) : Config × Nat :=
  let blk1 := commentMerge (getBlk c no) comment
  let newHosts := hosts.filter (fun h => h ∉ blk1.hosts)
  let c2 := {c with store := updateStore c.store no (addHostHitBlk c no hosts comment)}
  let c3 :=
    if newHosts ≠ [] then
      {c2 with host_map :=
        newHosts.foldl (fun hm h => hmAppendOrSet hm h no) c2.host_map}
    else c2
  (c3, no)

/-- The fresh synthetic block of the cache-miss branch. -/
def missBlk (c : Config) (hosts : List String) (lines : List BlkLine)
    (comment : String) : Block :=
  ⟨c.next_no, "Host " ++ String.intercalate " " hosts, hosts, lines,
    true, comment⟩

/-- The cache-miss branch of add_host: a fresh synthetic block. -/
def addHostMiss (c : Config) (hosts : List String) (lines : List BlkLine)
    (comment : String) : Config × Nat :=
  let b := missBlk c hosts lines comment
  let c2 := {c with next_no := c.next_no + 1, store := c.store ++ [(b.no, b)]}
  let c3 := push_blk c2 b true
  ({c3 with ext_cache := c3.ext_cache ++ [(lines.map blkLineStr, b.no)]},
    b.no)

/-- Config.add_host.  Returns the updated Config and the ordinal of the
returned Block. -/
def add_host (c : Config) (hosts : List String) (lines : List BlkLine)
    (comment : String) : Config × Nat :=
  match alookup c.ext_cache (lines.map blkLineStr) with
  | some no => addHostHit c no hosts comment
  | none => addHostMiss c hosts lines comment

/-- The payload attach passes to add_host: directives of the queried
host absent from the name's own query, then a Hostname line when the
host query saw none. -/
def attachLines (c : Config) (name host : String) : List BlkLine :=
  let old := (queryRaw c name).map (fun l => dirKey l.dir)
  ((queryRaw c host).filter (fun l => dirKey l.dir ∉ old)).map .lin ++
    (if "hostname" ∈ visOf c host then []
     else [.raw ("Hostname " ++ host)])

/-- The add_host cache key the attach payload produces. -/
def attachKey (c : Config) (name host : String) : List String :=
  (attachLines c name host).map blkLineStr

/-- Config.attach. -/
def attach (c : Config) (name host : String) : Config :=
  if name = host then c
  else (add_host c [name] (attachLines c name host)
      ("inherits from " ++ host)).1

/-! ### Well-formedness of the block store -/

def storeKeys (c : Config) : List Nat := c.store.map Prod.fst

def allNos (c : Config) : List Nat :=
  storeKeys c ++ c.host_map.flatMap Prod.snd ++ c.wildcards ++ c.blks
    ++ c.ext_blks ++ c.ext_cache.map Prod.snd

/-- Every referenced ordinal is a unique store key below the counter. -/
def ConfigWF (c : Config) : Prop :=
  (storeKeys c).Nodup ∧ (∀ no ∈ allNos c, no < c.next_no)
    ∧ ∀ no ∈ allNos c, no ∈ storeKeys c

instance (c : Config) : Decidable (ConfigWF c) := by
  unfold ConfigWF; infer_instance

/-! ## Zone routing graph (moon/route.py)

Nodes are stored in an arena list; the id of a node is its index.
Python's `_nodes` (name to node, insertion-ordered) and `_canonical`
(alias to canonical node) dictionaries become association lists. -/

def INF : Nat := 0x3F3F3F3F

structure Arc where
  dst : Nat
  cost : Nat
  al : Bool
deriving Repr, DecidableEq

structure Node where
  name : String
  zone : Option Nat
  adj : List Arc
  dist : Nat
  prev : Option (Nat × Arc)
  vis : Bool
  traced : Bool
deriving Repr, DecidableEq

instance : Inhabited Node := ⟨⟨"", none, [], INF, none, false, false⟩⟩

structure Zone where
  root : Nat
  hosts : List Nat
deriving Repr, DecidableEq

structure ZoneSet where
  arena : List Node
  names : List (String × Nat)
  canonical : List (String × Nat)
  q : List (Nat × Nat)
deriving Repr, DecidableEq

def getNode (zs : ZoneSet) (i : Nat) : Node := zs.arena.getD i default

def setNode (zs : ZoneSet) (i : Nat) (n : Node) : ZoneSet :=
  {zs with arena := zs.arena.set i n}

/-- ZoneSet._add: allocate a node; named nodes are registered. -/
def addNode (zs : ZoneSet) (name : String) (zone : Option Nat) : ZoneSet :=
  let node : Node := ⟨name, zone, [], INF, none, false, false⟩
  let zs2 := {zs with arena := zs.arena ++ [node]}
  if name ≠ "" then {zs2 with names := zs2.names ++ [(name, zs.arena.length)]}
  else zs2

/-- Node.arc. -/
def addArcN (zs : ZoneSet) (frm dst cost : Nat) (al : Bool) : ZoneSet :=
  let u := getNode zs frm
  setNode zs frm {u with adj := u.adj ++ [⟨dst, cost, al⟩]}

/-- ZoneSet.add: a zone root, canonical host nodes, alias shortcuts, and
the root-host arc pairs (10 out, 0 alias back). -/
def zsAdd (zs : ZoneSet) (hosts : List (List String)) : ZoneSet × Zone :=
  let rootId := zs.arena.length
  let zs1 := addNode zs "" none
  let p := hosts.foldl
    (fun (p : ZoneSet × List Nat) aliases =>
      match aliases with
      | [] => p
      | can :: rest =>
          let id := p.1.arena.length
          let zs2 := addNode p.1 can (some rootId)
          let zs3 := rest.foldl
            (fun zs al => {zs with canonical := zs.canonical ++ [(al, id)]})
            zs2
          (zs3, p.2 ++ [id]))
    (zs1, ([] : List Nat))
  let zs4 := p.2.foldl
    (fun zs u => addArcN (addArcN zs rootId u 10 false) u rootId 0 true) p.1
  (zs4, ⟨rootId, p.2⟩)

/-- ZoneSet.set_src. -/
def zsSetSrc (zs : ZoneSet) (z : Zone) : ZoneSet :=
  let u := getNode zs z.root
  if u.dist ≠ 0 then
    let zs2 := setNode zs z.root {u with dist := 0}
    {zs2 with q := zs2.q ++ [(0, z.root)]}
  else zs

/-- ZoneSet.arc: the four via cases; a via token that is neither a host
nor an alias and has no target zone raises (modelled as none). -/
def zsArc (zs : ZoneSet) (frm : Zone) (dst : Option Zone) (via : String)
    (cost : Nat) : Option ZoneSet :=
  if via ≠ "" then
    match alookup zs.names via with
    | some u => some (addArcN zs frm.root u cost false)
    | none =>
        match alookup zs.canonical via with
        | some hostId =>
            let uId := zs.arena.length
            let zs2 := addNode zs via (getNode zs hostId).zone
            let zs3 := addArcN zs2 uId hostId 0 true
            some (addArcN zs3 frm.root uId cost false)
        | none =>
            match dst with
            | none => none
            | some t =>
                let uId := zs.arena.length
                let zs2 := addNode zs via none
                let zs3 := addArcN zs2 uId t.root 0 false
                some (addArcN zs3 frm.root uId cost false)
  else
    match dst with
    | some t => some (addArcN zs frm.root t.root cost false)
    | none => none

/-- Pop the queue entry with minimal dist (heapq pop; dist ties cannot
arise simultaneously in the modelled runs). -/
def popMin (q : List (Nat × Nat)) : Option ((Nat × Nat) × List (Nat × Nat)) :=
  match q with
  | [] => none
  | e :: rest =>
      match popMin rest with
      | none => some (e, [])
      | some (m, rem) =>
          if e.1 ≤ m.1 then some (e, rest) else some (m, e :: rem)

/-- One Dijkstra iteration driver with fuel; the fuel bound exceeds the
number of possible queue pops. -/
def routeGo (zs : ZoneSet) : Nat → ZoneSet
  | 0 => zs
  | fuel + 1 =>
      match popMin zs.q with
      | none => zs
      | some (e, q2) =>
          let uid := e.2
          let zs1 := {zs with q := q2}
          let u := getNode zs1 uid
          if u.vis then routeGo zs1 fuel
          else
            let zs2 := setNode zs1 uid {u with vis := true}
            let zs3 := u.adj.foldl
              (fun zs e =>
                let v := getNode zs e.dst
                let t := u.dist + e.cost
                if t < v.dist then
                  let zs4 := setNode zs e.dst {v with dist := t, prev := some (uid, e)}
                  {zs4 with q := zs4.q ++ [(t, e.dst)]}
                else zs)
              zs2
            routeGo zs3 fuel

/-- ZoneSet.route.  Each queue pop removes one entry and entries are
pushed only by successful relaxations — at most once per arc, since a
node is expanded at most once — so the fuel covers every pop. -/
def zsRoute (zs : ZoneSet) : ZoneSet :=
  routeGo zs (zs.q.length + (zs.arena.map (fun n => n.adj.length)).sum + 1)

/-- Node._find with fuel (the prev chains of a finished run are
acyclic). -/
def findGo (zs : ZoneSet) : Nat → Nat → Option (List String)
  | _, 0 => none
  | uid, fuel + 1 =>
      let u := getNode zs uid
      match u.prev with
      | some (pid, e) =>
          match findGo zs pid fuel with
          | none => none
          | some r => some (if u.name ≠ "" && !e.al then r ++ [u.name] else r)
      | none => some (if u.name ≠ "" then [u.name] else [])

/-- Node.find: none when unreachable. -/
def nodeFind (zs : ZoneSet) (uid : Nat) : Option (List String) :=
  if (getNode zs uid).dist < INF then findGo zs uid (zs.arena.length + 1)
  else none

/-- Mark the prev chain traced (the loop in ZoneSet.trace). -/
def setTracedGo (zs : ZoneSet) : Nat → Nat → ZoneSet
  | _, 0 => zs
  | uid, fuel + 1 =>
      let u := getNode zs uid
      let zs2 := setNode zs uid {u with traced := true}
      match u.prev with
      | some (pid, _) => setTracedGo zs2 pid fuel
      | none => zs2

/-- ZoneSet.trace: none models the KeyError on an unknown name. -/
def zsTrace (zs : ZoneSet) (name : String) :
    Option (Option (List String) × ZoneSet) :=
  match alookup zs.names name with
  | none => none
  | some uid =>
      match nodeFind zs uid with
      | none => some (none, zs)
      | some path => some (some path, setTracedGo zs uid (zs.arena.length + 1))

/-- ZoneSet.resolve. -/
def zsResolve (zs : ZoneSet) (name : String) : Option (String × String) :=
  match alookup zs.names name with
  | none => none
  | some uid =>
      match nodeFind zs uid with
      | none => none
      | some [] => none
      | some way =>
          some ((way.getLast?).getD "", String.intercalate "," way.dropLast)

/-- ZoneSet.inject. -/
def zsInject (zs : ZoneSet) (c : Config) : Config :=
  zs.names.foldl
    (fun c p =>
      let target := p.1
      match nodeFind zs p.2 with
      | some [] => c
      | none => c
      | some way =>
          let c1 := attach c target ((way.getLast?).getD "")
          if 2 ≤ way.length then
            (add_host c1 [target]
              [.raw ("ProxyJump " ++ ((way.dropLast.getLast?).getD ""))]
              ("[" ++ String.intercalate ", " way.dropLast ++ "]")).1
          else c1)
    c

/-! ## Environment and passes (moon/env.py) -/

inductive PassRes where
  | ok : String → PassRes
  | abort : String → PassRes

/-- A transformation pass; Abort is a result constructor rather than an
exception. -/
def PassFn : Type := String → String → PassRes

/-- _run_passes. -/
def run_passes (k : String) : String → List PassFn → String × Bool
  | v, [] => (v, true)
  | v, p :: ps =>
      match p k v with
      | .ok v2 => run_passes k v2 ps
      | .abort r => (r, false)

/-- Python dict assignment on an association list. -/
def aset {α β : Type} [DecidableEq α] : List (α × β) → α → β → List (α × β)
  | [], k, t => [(k, t)]
  | (k0, v0) :: rest, k, t =>
      if k0 = k then (k0, t) :: rest else (k0, v0) :: aset rest k t

structure Environment where
  passes : List PassFn
  args : List (String × (String × Option Nat))

/-- Environment.__getitem__ / _get: none models the KeyError. -/
def envGet (e : Environment) (k : String) : Option (String × Environment) :=
  match alookup e.args k with
  | none => none
  | some (v, some i) =>
      let pr := run_passes k v (e.passes.drop i)
      let ni : Option Nat := if pr.2 then some e.passes.length else none
      some (pr.1, {e with args := aset e.args k (pr.1, ni)})
  | some (v, none) => some (v, e)

/-- Environment.add_pass. -/
def addPass (e : Environment) (f : PassFn) : Environment :=
  {e with passes := e.passes ++ [f]}

/-- Environment.__setitem__. -/
def envSet (e : Environment) (k v : String) : Environment :=
  {e with args := aset e.args k (v, some 0)}

/-- Operations a client can perform after a lookup. -/
inductive EnvOp where
  | pass : PassFn → EnvOp
  | get : String → EnvOp
  | set : String → String → EnvOp

def execOp (e : Environment) : EnvOp → Environment
  | .pass f => addPass e f
  | .get k =>
      match envGet e k with
      | some pr => pr.2
      | none => e
  | .set k v => envSet e k v

def execOps (e : Environment) (ops : List EnvOp) : Environment :=
  ops.foldl execOp e

/-- Whether an operation overwrites the given key. -/
def opSetsKey : EnvOp → String → Bool
  | .set k0 _, k => k0 = k
  | _, _ => false

/-! ## Source-zone predicate (cfg.py in_zone) and the output gating
(luna.py main) -/

/-- cfg.in_zone: timezone constraint ANDed with an OR over subnets.
`check` abstracts Interfaces.check_subnet, `now` the current UTC offset
in seconds. -/
def in_zone {α : Type} (check : α → Bool) (now : ℤ) (tz : Option ℚ)
    (subnets : List α) : Bool :=
  let subnetHit := match subnets with
    | [] => true
    | _ :: _ => subnets.any check
  match tz with
  | some t => if (now : ℚ) ≠ t * 3600 then false else subnetHit
  | none => subnetHit

/-- ZoneConfig.route source marking: set_src exactly on the zones whose
in_zone predicate holds. -/
def markSources {α : Type} (g : ZoneSet) (zones : List Zone)
    (conds : List (Option ℚ × List α)) (check : α → Bool) (now : ℤ) :
    ZoneSet :=
  (zones.zip conds).foldl
    (fun g p => if in_zone check now p.2.1 p.2.2 then zsSetSrc g p.1 else g) g

/-- The three outcomes of luna.py main with an output file. -/
inductive MainAction where
  | previewWaited : MainAction
  | skipFresh : MainAction
  | generateWrite : MainAction
deriving Repr, DecidableEq

/-- The output-file gating of luna.py main: preview when the lock was
contended, skip when the output exists with mtime within 2 seconds
(dt = now - mtime), regenerate otherwise.  No state file exists in this
code path. -/
def mainDecision (waited outExists : Bool) (dt : ℚ) : MainAction :=
  if waited then .previewWaited
  else if outExists && decide (dt ≤ 2) then .skipFresh
  else .generateWrite

/-- The gating the specification describes (skip also when the output is
newer than all inputs and the state key is unchanged). -/
def specSkips (outExists : Bool) (dt : ℚ) (outNewer stateEq : Bool) : Bool :=
  (outExists && decide (dt ≤ 2)) || (outNewer && stateEq)

/-! ## Scenario instances -/

def zsEmpty : ZoneSet := ⟨[], [], [], []⟩

/-- Two-hop scenario, zone A = [a]. -/
def twoHopA : ZoneSet × Zone := zsAdd zsEmpty [["a"]]

/-- Two-hop scenario, zone B = [b]. -/
def twoHopB : ZoneSet × Zone := zsAdd twoHopA.1 [["b"]]

/-- Two-hop scenario, zone C = [c]. -/
def twoHopC : ZoneSet × Zone := zsAdd twoHopB.1 [["c"]]

/-- Arcs A --b--> (cost 20) and B --c--> (cost 20). -/
def twoHopGraph : Option ZoneSet :=
  (zsArc twoHopC.1 twoHopA.2 none "b" 20).bind
    (fun z => zsArc z twoHopB.2 none "c" 20)

/-- The two-hop graph routed from source set A. -/
def twoHopRouted : ZoneSet :=
  zsRoute (zsSetSrc (twoHopGraph.getD zsEmpty) twoHopA.2)

/-- The empty parsed document. -/
def emptyConf : Config := parseConfig []

/-- The two-hop graph injected into the empty document. -/
def twoHopInjected : Config := zsInject twoHopRouted emptyConf

/-- Alias scenario, zone A = [a:a1:a2]. -/
def aliasA : ZoneSet × Zone := zsAdd zsEmpty [["a", "a1", "a2"]]

/-- Alias scenario, zone B = [b]. -/
def aliasB : ZoneSet × Zone := zsAdd aliasA.1 [["b"]]

/-- Alias scenario, zone C = [c]. -/
def aliasC : ZoneSet × Zone := zsAdd aliasB.1 [["c"]]

/-- Arcs A --a2--> B (cost 20) and B --c--> (cost 20). -/
def aliasGraph : Option ZoneSet :=
  (zsArc aliasC.1 aliasA.2 (some aliasB.2) "a2" 20).bind
    (fun z => zsArc z aliasB.2 none "c" 20)

/-- The alias graph routed from source set A. -/
def aliasRouted : ZoneSet :=
  zsRoute (zsSetSrc (aliasGraph.getD zsEmpty) aliasA.2)

/-- The document for the C2 witness. -/
def c2Conf : Config := parseConfig ["Host h", "  User u"]

/-- The document for the C2 counterexample: n already has a directive h
lacks. -/
def cxConf : Config :=
  parseConfig ["Host n", "  Port 5", "Host h", "  User u"]

/-- add_host comment-merge probe states. -/
def ahOnce : Config × Nat := add_host emptyConf ["x"] [.raw "Port 1"] "a"

def ahTwice : Config × Nat := add_host ahOnce.1 ["x"] [.raw "Port 1"] "b"

def ahThrice : Config × Nat := add_host ahTwice.1 ["x"] [.raw "Port 1"] "b"

/-! ## General lemmas -/

theorem ordIns_perm {α : Type} (le : α → α → Bool) (a : α) (l : List α) :
    (ordIns le a l).Perm (a :: l) := by
  induction l with
  | nil => simp [ordIns]
  | cons b t ih =>
      by_cases h : le a b
      · simp [ordIns, h]
      · simp only [ordIns, h, if_false]
        exact ((ih.cons b).trans (List.Perm.swap a b t))

theorem insSort_perm {α : Type} (le : α → α → Bool) (l : List α) :
    (insSort le l).Perm l := by
  induction l with
  | nil => simp [insSort]
  | cons a t ih => exact (ordIns_perm le a (insSort le t)).trans (ih.cons a)

theorem ordIns_congr {α : Type} (le1 le2 : α → α → Bool) (a : α) (l : List α)
    (ha : ∀ b ∈ l, le1 a b = le2 a b) :
    ordIns le1 a l = ordIns le2 a l := by
  induction l with
  | nil => simp [ordIns]
  | cons b t ih =>
      have hb := ha b (by simp)
      by_cases h : le1 a b
      · simp [ordIns, h, hb ▸ h]
      · have h2 : ¬ le2 a b = true := by rw [← hb]; exact h
        simp only [ordIns, h, h2, if_false]
        rw [ih (fun x hx => ha x (by simp [hx]))]

theorem insSort_congr {α : Type} (le1 le2 : α → α → Bool) (l : List α)
    (h : ∀ a ∈ l, ∀ b ∈ l, le1 a b = le2 a b) :
    insSort le1 l = insSort le2 l := by
  induction l with
  | nil => rfl
  | cons a t ih =>
      simp only [insSort]
      rw [ih (fun x hx y hy => h x (by simp [hx]) y (by simp [hy]))]
      exact ordIns_congr le1 le2 a (insSort le2 t)
        (fun b hb => h a (by simp) b
          (by simp [((insSort_perm le2 t).mem_iff).1 hb]))

/-! ### dedupWalk lemmas -/

theorem dedupWalk_cons_accum (vis : List String) (x : Line) (rest : List Line)
    (h : accumOpt x.dir.opt = true) :
    (dedupWalk vis (x :: rest)).1 = x :: (dedupWalk vis rest).1
      ∧ (dedupWalk vis (x :: rest)).2 = (dedupWalk vis rest).2 := by
  refine ⟨?_, ?_⟩ <;> simp [dedupWalk, h]

theorem dedupWalk_cons_seen (vis : List String) (x : Line) (rest : List Line)
    (h1 : accumOpt x.dir.opt = false) (h2 : x.dir.opt ∈ vis) :
    dedupWalk vis (x :: rest) = dedupWalk vis rest := by
  simp [dedupWalk, h1, h2]

theorem dedupWalk_cons_new (vis : List String) (x : Line) (rest : List Line)
    (h1 : accumOpt x.dir.opt = false) (h2 : x.dir.opt ∉ vis) :
    (dedupWalk vis (x :: rest)).1
        = x :: (dedupWalk (x.dir.opt :: vis) rest).1
      ∧ (dedupWalk vis (x :: rest)).2
        = (dedupWalk (x.dir.opt :: vis) rest).2 := by
  refine ⟨?_, ?_⟩ <;> simp [dedupWalk, h1, h2]

theorem dedupWalk_countP (vis : List String) (s : List Line) (opt : String)
    (ha : accumOpt opt = false) :
    ((dedupWalk vis s).1.countP (fun l => l.dir.opt == opt))
      ≤ if opt ∈ vis then 0 else 1 := by
  induction s generalizing vis with
  | nil => simp [dedupWalk]
  | cons x rest ih =>
      by_cases hacc : accumOpt x.dir.opt
      · have hne : (x.dir.opt == opt) = false := by
          simp only [beq_eq_false_iff_ne, ne_eq]
          intro e
          rw [e, ha] at hacc
          cases hacc
        rw [(dedupWalk_cons_accum vis x rest hacc).1, List.countP_cons]
        simp only [hne, if_neg, Bool.false_eq_true, if_false, Nat.add_zero]
        exact ih vis
      · rw [Bool.not_eq_true] at hacc
        by_cases hv : x.dir.opt ∈ vis
        · rw [dedupWalk_cons_seen vis x rest hacc hv]
          exact ih vis
        · rw [(dedupWalk_cons_new vis x rest hacc hv).1, List.countP_cons]
          have h2 := ih (x.dir.opt :: vis)
          by_cases heq : x.dir.opt = opt
          · subst heq
            simp only [List.mem_cons, true_or, if_pos] at h2
            simp only [beq_self_eq_true, if_pos, hv, if_neg, if_false]
            omega
          · have hne : (x.dir.opt == opt) = false := by
              simp only [beq_eq_false_iff_ne, ne_eq]; exact heq
            have hmem : (opt ∈ x.dir.opt :: vis) ↔ (opt ∈ vis) := by
              simp only [List.mem_cons]
              exact ⟨fun h => h.elim (fun e => absurd e.symm heq) id, Or.inr⟩
            simp only [hne, Bool.false_eq_true, if_false, Nat.add_zero]
            refine le_trans h2 ?_
            by_cases hvv : opt ∈ vis
            · simp [hvv, hmem.2 hvv]
            · simp only [hvv, fun hh => hvv (hmem.1 hh), if_neg, if_false]
              split <;> omega

theorem dedupWalk_mem_find (vis : List String) (s : List Line) :
    ∀ l ∈ (dedupWalk vis s).1, accumOpt l.dir.opt = false →
      l.dir.opt ∉ vis
        ∧ s.find? (fun x => x.dir.opt == l.dir.opt) = some l := by
  induction s generalizing vis with
  | nil => simp [dedupWalk]
  | cons x rest ih =>
      intro l hl hla
      by_cases hacc : accumOpt x.dir.opt
      · rw [(dedupWalk_cons_accum vis x rest hacc).1] at hl
        rcases List.mem_cons.1 hl with he | hl2
        · rw [he] at hla; rw [hla] at hacc; cases hacc
        · obtain ⟨h1, h2⟩ := ih vis l hl2 hla
          have hne : (x.dir.opt == l.dir.opt) = false := by
            simp only [beq_eq_false_iff_ne, ne_eq]
            intro e
            rw [← e] at hla
            rw [hla] at hacc
            cases hacc
          refine ⟨h1, ?_⟩
          rw [List.find?_cons]
          simp only [hne]
          exact h2
      · rw [Bool.not_eq_true] at hacc
        by_cases hv : x.dir.opt ∈ vis
        · rw [dedupWalk_cons_seen vis x rest hacc hv] at hl
          obtain ⟨h1, h2⟩ := ih vis l hl hla
          have hne : (x.dir.opt == l.dir.opt) = false := by
            simp only [beq_eq_false_iff_ne, ne_eq]
            intro e
            exact h1 (e ▸ hv)
          refine ⟨h1, ?_⟩
          rw [List.find?_cons]
          simp only [hne]
          exact h2
        · rw [(dedupWalk_cons_new vis x rest hacc hv).1] at hl
          rcases List.mem_cons.1 hl with he | hl2
          · subst he
            refine ⟨hv, ?_⟩
            rw [List.find?_cons]
            simp
          · obtain ⟨h1, h2⟩ := ih (x.dir.opt :: vis) l hl2 hla
            have hxne : x.dir.opt ≠ l.dir.opt := by
              intro e
              exact h1 (by simp [e.symm])
            have hvne : l.dir.opt ∉ vis := fun hm => h1 (by simp [hm])
            refine ⟨hvne, ?_⟩
            rw [List.find?_cons]
            simp only [beq_eq_false_iff_ne, ne_eq,
              (by simp [beq_eq_false_iff_ne, ne_eq] : (x.dir.opt == l.dir.opt) = false ↔ ¬ x.dir.opt = l.dir.opt).2 hxne]
            exact h2

theorem dedupWalk_filter_accum (vis : List String) (s : List Line) :
    (dedupWalk vis s).1.filter (fun l => accumOpt l.dir.opt)
      = s.filter (fun l => accumOpt l.dir.opt) := by
  induction s generalizing vis with
  | nil => simp [dedupWalk]
  | cons x rest ih =>
      by_cases hacc : accumOpt x.dir.opt
      · rw [(dedupWalk_cons_accum vis x rest hacc).1,
          List.filter_cons_of_pos (by simpa using hacc),
          List.filter_cons_of_pos (by simpa using hacc), ih vis]
      · rw [Bool.not_eq_true] at hacc
        by_cases hv : x.dir.opt ∈ vis
        · rw [dedupWalk_cons_seen vis x rest hacc hv,
            List.filter_cons_of_neg (by simpa using hacc)]
          exact ih vis
        · rw [(dedupWalk_cons_new vis x rest hacc hv).1,
            List.filter_cons_of_neg (by simpa using hacc),
            List.filter_cons_of_neg (by simpa using hacc)]
          exact ih (x.dir.opt :: vis)

/-! ### Association-list update lemmas -/

theorem aset_alookup_self {α β : Type} [DecidableEq α]
    (l : List (α × β)) (k : α) (t : β) :
    alookup (aset l k t) k = some t := by
  induction l with
  | nil => simp [aset, alookup]
  | cons kv rest ih =>
      by_cases h : kv.1 = k
      · simp [aset, alookup, h]
      · simp [aset, alookup, h, ih]

theorem aset_alookup_other {α β : Type} [DecidableEq α]
    (l : List (α × β)) (k k2 : α) (t : β) (h : k2 ≠ k) :
    alookup (aset l k t) k2 = alookup l k2 := by
  induction l with
  | nil =>
      simp only [aset, alookup]
      rw [if_neg (fun ee => h ee.symm)]
  | cons kv rest ih =>
      obtain ⟨k0, v0⟩ := kv
      by_cases hk : k0 = k
      · subst hk
        simp only [aset, if_pos rfl, alookup]
        rw [if_neg (fun ee => h ee.symm), if_neg (fun ee => h ee.symm)]
      · simp only [aset, if_neg hk, alookup]
        by_cases hk2 : k0 = k2
        · simp [hk2]
        · simp [hk2, ih]

/-! ### Environment lemmas -/

theorem execOp_preserves_aborted (e : Environment) (k r : String)
    (op : EnvOp) (h : alookup e.args k = some (r, none))
    (hop : opSetsKey op k = false) :
    alookup (execOp e op).args k = some (r, none) := by
  cases op with
  | pass f => simpa [execOp, addPass] using h
  | get k2 =>
      by_cases hk : k2 = k
      · subst hk
        simp [execOp, envGet, h]
      · simp only [execOp, envGet]
        cases halt : alookup e.args k2 with
        | none => simpa using h
        | some t =>
            cases t with
            | mk v2 i2 =>
                cases i2 with
                | none => simpa using h
                | some m =>
                    simp only []
                    rw [aset_alookup_other _ _ _ _ (fun e2 => hk e2.symm)]
                    exact h
  | set k2 v2 =>
      have hne : k2 ≠ k := by simpa [opSetsKey] using hop
      simp only [execOp, envSet]
      rw [aset_alookup_other _ _ _ _ (fun e2 => hne e2.symm)]
      exact h

theorem execOps_preserves_aborted (e : Environment) (k r : String)
    (ops : List EnvOp) (h : alookup e.args k = some (r, none))
    (hops : ∀ op ∈ ops, opSetsKey op k = false) :
    alookup (execOps e ops).args k = some (r, none) := by
  induction ops generalizing e with
  | nil => simpa [execOps] using h
  | cons op rest ih =>
      have h1 := execOp_preserves_aborted e k r op h (hops op (by simp))
      have h2 := ih (execOp e op) h1 (fun o ho => hops o (by simp [ho]))
      simpa [execOps] using h2

/-! ### Store and index lemmas -/

theorem alookup_append_some {α β : Type} [DecidableEq α]
    (l1 l2 : List (α × β)) (a : α) (b : β) (h : alookup l1 a = some b) :
    alookup (l1 ++ l2) a = some b := by
  induction l1 with
  | nil => simp [alookup] at h
  | cons kv rest ih =>
      obtain ⟨k0, v0⟩ := kv
      by_cases hk : k0 = a
      · simp [alookup, hk] at h ⊢
        exact h
      · simp only [alookup, hk, if_false, List.cons_append, if_neg hk] at h ⊢
        exact ih h

theorem alookup_append_none {α β : Type} [DecidableEq α]
    (l1 l2 : List (α × β)) (a : α) (h : alookup l1 a = none) :
    alookup (l1 ++ l2) a = alookup l2 a := by
  induction l1 with
  | nil => simp
  | cons kv rest ih =>
      obtain ⟨k0, v0⟩ := kv
      by_cases hk : k0 = a
      · simp [alookup, hk] at h
      · simp only [alookup, hk, if_false, List.cons_append, if_neg hk] at h ⊢
        exact ih h

theorem alookup_eq_none {α β : Type} [DecidableEq α]
    (l : List (α × β)) (a : α) (h : ∀ kv ∈ l, kv.1 ≠ a) :
    alookup l a = none := by
  induction l with
  | nil => rfl
  | cons kv rest ih =>
      obtain ⟨k0, v0⟩ := kv
      have h0 : k0 ≠ a := h (k0, v0) (by simp)
      simp only [alookup, if_neg h0]
      exact ih (fun kv2 hm => h kv2 (by simp [hm]))

theorem alookup_some_mem_snd {α β : Type} [DecidableEq α]
    (l : List (α × β)) (a : α) (b : β) (h : alookup l a = some b) :
    b ∈ l.map Prod.snd := by
  induction l with
  | nil => simp [alookup] at h
  | cons kv rest ih =>
      obtain ⟨k0, v0⟩ := kv
      by_cases hk : k0 = a
      · simp [alookup, hk] at h
        simp [h]
      · simp only [alookup, if_neg hk] at h
        simp [ih h]

theorem mem_keys_alookup {α β : Type} [DecidableEq α]
    (l : List (α × β)) (a : α) (h : a ∈ l.map Prod.fst) :
    ∃ b, alookup l a = some b := by
  induction l with
  | nil => simp at h
  | cons kv rest ih =>
      obtain ⟨k0, v0⟩ := kv
      by_cases hk : k0 = a
      · exact ⟨v0, by simp [alookup, hk]⟩
      · simp only [List.map_cons, List.mem_cons] at h
        rcases h with he | hm
        · exact absurd he.symm hk
        · obtain ⟨b, hb⟩ := ih hm
          exact ⟨b, by simp [alookup, hk, hb]⟩

theorem alookup_updateStore_self (st : List (Nat × Block)) (n : Nat)
    (b : Block) (h : ∃ b0, alookup st n = some b0) :
    alookup (updateStore st n b) n = some b := by
  induction st with
  | nil => obtain ⟨b0, hb0⟩ := h; simp [alookup] at hb0
  | cons kv rest ih =>
      obtain ⟨k0, v0⟩ := kv
      by_cases hk : k0 = n
      · subst hk
        have h1 : updateStore ((k0, v0) :: rest) k0 b
            = (k0, b) :: updateStore rest k0 b := by
          simp [updateStore]
        rw [h1]
        simp [alookup]
      · obtain ⟨b0, hb0⟩ := h
        simp only [alookup, if_neg hk] at hb0
        have h1 : updateStore ((k0, v0) :: rest) n b
            = (k0, v0) :: updateStore rest n b := by
          simp [updateStore, hk]
        rw [h1]
        simp only [alookup, if_neg hk]
        exact ih ⟨b0, hb0⟩

theorem alookup_updateStore_other (st : List (Nat × Block)) (n m : Nat)
    (b : Block) (h : m ≠ n) :
    alookup (updateStore st n b) m = alookup st m := by
  induction st with
  | nil => rfl
  | cons kv rest ih =>
      obtain ⟨k0, v0⟩ := kv
      by_cases hk : k0 = n
      · subst hk
        have hne : ¬ k0 = m := fun e => h (e.symm)
        simp only [updateStore, List.map_cons, if_pos rfl]
        simp only [alookup, if_neg hne]
        simpa [updateStore] using ih
      · simp only [updateStore, List.map_cons, if_neg hk]
        by_cases hm : k0 = m
        · simp [alookup, hm]
        · simp only [alookup, if_neg hm]
          simpa [updateStore] using ih

theorem updateStore_mem_val (st : List (Nat × Block)) (n : Nat) (b : Block) :
    ∀ kv ∈ updateStore st n b, kv.1 = n → kv.2 = b := by
  intro kv hkv he
  simp only [updateStore, List.mem_map] at hkv
  obtain ⟨kv0, _, hmap⟩ := hkv
  by_cases hk : kv0.1 = n
  · rw [if_pos hk] at hmap
    rw [← hmap]
  · rw [if_neg hk] at hmap
    rw [← hmap] at he
    exact absurd he hk

theorem updateStore_stable (st : List (Nat × Block)) (n : Nat) (b : Block)
    (h : ∀ kv ∈ st, kv.1 = n → kv.2 = b) :
    updateStore st n b = st := by
  induction st with
  | nil => rfl
  | cons kv rest ih =>
      obtain ⟨k0, v0⟩ := kv
      simp only [updateStore, List.map_cons]
      by_cases hk : k0 = n
      · rw [if_pos hk]
        have hv := h (k0, v0) (by simp) hk
        simp only at hv
        rw [hv]
        have := ih (fun kv2 hm => h kv2 (by simp [hm]))
        simpa [updateStore] using this
      · rw [if_neg hk]
        have := ih (fun kv2 hm => h kv2 (by simp [hm]))
        simpa [updateStore] using this

theorem pushIndex_store (no : Nat) (c : Config) (h : String) :
    (pushIndex no c h).store = c.store := by
  simp only [pushIndex]
  split <;> [skip; rfl]
  split <;> rfl

theorem foldl_pushIndex_store (no : Nat) (hosts : List String) (c : Config) :
    (hosts.foldl (pushIndex no) c).store = c.store := by
  induction hosts generalizing c with
  | nil => rfl
  | cons h t ih => rw [List.foldl_cons, ih, pushIndex_store]

theorem pushIndex_ext_cache (no : Nat) (c : Config) (h : String) :
    (pushIndex no c h).ext_cache = c.ext_cache := by
  simp only [pushIndex]
  split <;> [skip; rfl]
  split <;> rfl

theorem foldl_pushIndex_ext_cache (no : Nat) (hosts : List String)
    (c : Config) :
    (hosts.foldl (pushIndex no) c).ext_cache = c.ext_cache := by
  induction hosts generalizing c with
  | nil => rfl
  | cons h t ih => rw [List.foldl_cons, ih, pushIndex_ext_cache]

theorem push_blk_store (c : Config) (b : Block) (ext : Bool) :
    (push_blk c b ext).store = c.store := by
  simp only [push_blk]
  rw [foldl_pushIndex_store]
  split <;> rfl

theorem push_blk_ext_cache (c : Config) (b : Block) (ext : Bool) :
    (push_blk c b ext).ext_cache = c.ext_cache := by
  simp only [push_blk]
  rw [foldl_pushIndex_ext_cache]
  split <;> rfl

/-! ### add_host branch lemmas -/

theorem commentMerge_hosts (b : Block) (comment : String) :
    (commentMerge b comment).hosts = b.hosts := by
  simp only [commentMerge]
  split <;> [skip; rfl]
  split <;> rfl

theorem Block_eta_comment (b : Block) (s : String) (h : b.comment = s) :
    ({b with comment := s} : Block) = b := by
  cases b
  simp only at h
  simp [h]

theorem addHostHit_snd (c : Config) (no : Nat) (hosts : List String)
    (comment : String) : (addHostHit c no hosts comment).2 = no := rfl

theorem addHostHit_ext_cache (c : Config) (no : Nat) (hosts : List String)
    (comment : String) :
    (addHostHit c no hosts comment).1.ext_cache = c.ext_cache := by
  simp only [addHostHit]
  split <;> rfl

theorem addHostHit_store (c : Config) (no : Nat) (hosts : List String)
    (comment : String) :
    (addHostHit c no hosts comment).1.store
      = updateStore c.store no (addHostHitBlk c no hosts comment) := by
  simp only [addHostHit]
  split <;> rfl

theorem addHostHitBlk_hosts (c : Config) (no : Nat) (hosts : List String)
    (comment : String) :
    ∀ h ∈ hosts, h ∈ (addHostHitBlk c no hosts comment).hosts := by
  intro h hh
  simp only [addHostHitBlk]
  by_cases hf : hosts.filter
      (fun h => h ∉ (commentMerge (getBlk c no) comment).hosts) ≠ []
  · rw [if_pos hf]
    simp only [List.mem_append]
    by_cases hmem : h ∈ (commentMerge (getBlk c no) comment).hosts
    · exact Or.inl hmem
    · exact Or.inr (List.mem_filter.2 ⟨hh, by simpa using hmem⟩)
  · rw [if_neg hf]
    rw [Classical.not_not] at hf
    have := List.filter_eq_nil_iff.1 hf h hh
    simpa using this

theorem addHostHit_noop (c : Config) (no : Nat) (hosts : List String)
    (comment : String) (B : Block)
    (hB : alookup c.store no = some B)
    (hstable : ∀ kv ∈ c.store, kv.1 = no → kv.2 = B)
    (hhosts : ∀ h ∈ hosts, h ∈ B.hosts)
    (hcom : commentMerge B comment = B) :
    addHostHit c no hosts comment = (c, no) := by
  have hgb : getBlk c no = B := by simp [getBlk, hB]
  have hfil : hosts.filter
      (fun h => h ∉ (commentMerge (getBlk c no) comment).hosts) = [] := by
    rw [hgb, hcom]
    exact List.filter_eq_nil_iff.2 (fun h hh => by simpa using hhosts h hh)
  have hblk : addHostHitBlk c no hosts comment = B := by
    simp only [addHostHitBlk, hfil]
    simp [hgb, hcom]
  have hupd : updateStore c.store no (addHostHitBlk c no hosts comment)
      = c.store := by
    rw [hblk]
    exact updateStore_stable _ _ _ hstable
  simp only [addHostHit, hfil, hupd]
  simp

/-! ### Lemmas for the attach analysis -/

theorem perm_toFinset {α : Type} [DecidableEq α] {l1 l2 : List α}
    (p : l1.Perm l2) : l1.toFinset = l2.toFinset := by
  ext a
  simp [p.mem_iff]

theorem flatMap_congr {α β : Type} (l : List α) (f g : α → List β)
    (h : ∀ x ∈ l, f x = g x) : l.flatMap f = l.flatMap g := by
  induction l with
  | nil => rfl
  | cons a t ih =>
      simp only [List.flatMap_cons]
      rw [h a (by simp), ih (fun x hx => h x (by simp [hx]))]

theorem flatMap_single {α β : Type} (l : List α) (b : α) (f : α → List β)
    (hnd : l.Nodup) (hb : b ∈ l) (hnil : ∀ x ∈ l, x ≠ b → f x = []) :
    l.flatMap f = f b := by
  induction l with
  | nil => simp at hb
  | cons a t ih =>
      rcases List.mem_cons.1 hb with he | hm
      · subst he
        simp only [List.flatMap_cons]
        have : t.flatMap f = [] := by
          rw [List.flatMap_eq_nil_iff]
          intro x hx
          exact hnil x (by simp [hx]) (fun e => (List.nodup_cons.1 hnd).1 (e ▸ hx))
        rw [this, List.append_nil]
      · have ha : f a = [] :=
          hnil a (by simp) (fun e => (List.nodup_cons.1 hnd).1 (e ▸ hm))
        simp only [List.flatMap_cons, ha, List.nil_append]
        exact ih (List.nodup_cons.1 hnd).2 hm
          (fun x hx hxb => hnil x (by simp [hx]) hxb)

theorem alookup_append_single_ne {α β : Type} [DecidableEq α]
    (st : List (α × β)) (n : α) (b : β) (a : α) (h : a ≠ n) :
    alookup (st ++ [(n, b)]) a = alookup st a := by
  induction st with
  | nil =>
      simp only [List.nil_append, alookup]
      rw [if_neg (fun e => h e.symm)]
  | cons kv rest ih =>
      obtain ⟨k0, v0⟩ := kv
      by_cases hk : k0 = a
      · simp [alookup, hk]
      · simp only [List.cons_append, alookup, if_neg hk]
        exact ih

theorem hmAppend_alookup_self (hm : List (String × List Nat)) (h : String)
    (no : Nat) :
    alookup (hmAppend hm h no) h = some ((alookup hm h).getD [] ++ [no]) := by
  induction hm with
  | nil => simp [hmAppend, alookup]
  | cons kv rest ih =>
      obtain ⟨k0, v0⟩ := kv
      by_cases hk : k0 = h
      · simp [hmAppend, alookup, hk]
      · simp only [hmAppend, if_neg hk, alookup]
        simp only [alookup, if_neg hk] at ih ⊢
        exact ih

theorem hmAppend_alookup_other (hm : List (String × List Nat)) (h h2 : String)
    (no : Nat) (hne : h2 ≠ h) :
    alookup (hmAppend hm h no) h2 = alookup hm h2 := by
  induction hm with
  | nil =>
      simp only [hmAppend, alookup]
      rw [if_neg (fun e => hne e.symm)]
  | cons kv rest ih =>
      obtain ⟨k0, v0⟩ := kv
      by_cases hk : k0 = h
      · subst hk
        simp only [hmAppend, if_pos rfl, alookup]
        rw [if_neg (fun e => hne e.symm), if_neg (fun e => hne e.symm)]
      · simp only [hmAppend, if_neg hk, alookup]
        by_cases hk2 : k0 = h2
        · simp [hk2]
        · simp only [if_neg hk2]
          exact ih

theorem dedupWalk_append (vis : List String) (s t : List Line) :
    (dedupWalk vis (s ++ t)).1
        = (dedupWalk vis s).1 ++ (dedupWalk (dedupWalk vis s).2 t).1
      ∧ (dedupWalk vis (s ++ t)).2 = (dedupWalk (dedupWalk vis s).2 t).2 := by
  induction s generalizing vis with
  | nil => simp [dedupWalk]
  | cons x rest ih =>
      by_cases hacc : accumOpt x.dir.opt
      · have h1 := dedupWalk_cons_accum vis x (rest ++ t) hacc
        have h2 := dedupWalk_cons_accum vis x rest hacc
        rw [List.cons_append] at *
        refine ⟨?_, ?_⟩
        · rw [h1.1, h2.1, h2.2, List.cons_append, (ih vis).1]
        · rw [h1.2, h2.2, (ih vis).2]
      · rw [Bool.not_eq_true] at hacc
        by_cases hv : x.dir.opt ∈ vis
        · have h1 := dedupWalk_cons_seen vis x (rest ++ t) hacc hv
          have h2 := dedupWalk_cons_seen vis x rest hacc hv
          rw [List.cons_append, h1, h2]
          exact ih vis
        · have h1 := dedupWalk_cons_new vis x (rest ++ t) hacc hv
          have h2 := dedupWalk_cons_new vis x rest hacc hv
          rw [List.cons_append] at *
          refine ⟨?_, ?_⟩
          · rw [h1.1, h2.1, h2.2, List.cons_append,
              (ih (x.dir.opt :: vis)).1]
          · rw [h1.2, h2.2, (ih (x.dir.opt :: vis)).2]

theorem dedupWalk_idem (vis : List String) (s : List Line) :
    dedupWalk vis ((dedupWalk vis s).1) = dedupWalk vis s := by
  induction s generalizing vis with
  | nil => simp [dedupWalk]
  | cons x rest ih =>
      by_cases hacc : accumOpt x.dir.opt
      · have h1 := dedupWalk_cons_accum vis x rest hacc
        have h2 := dedupWalk_cons_accum vis x (dedupWalk vis rest).1 hacc
        have h3 := ih vis
        rw [h1.1]
        apply Prod.ext
        · rw [h2.1, h3, h1.1]
        · rw [h2.2, h3, h1.2]
      · rw [Bool.not_eq_true] at hacc
        by_cases hv : x.dir.opt ∈ vis
        · rw [dedupWalk_cons_seen vis x rest hacc hv]
          exact ih vis
        · have h1 := dedupWalk_cons_new vis x rest hacc hv
          have h2 := dedupWalk_cons_new vis x
            (dedupWalk (x.dir.opt :: vis) rest).1 hacc hv
          have h3 := ih (x.dir.opt :: vis)
          rw [h1.1]
          apply Prod.ext
          · rw [h2.1, h3, h1.1]
          · rw [h2.2, h3, h1.2]

theorem dedupWalk_vis_mem (vis : List String) (s : List Line) (opt : String)
    (ha : accumOpt opt = false) :
    opt ∈ (dedupWalk vis s).2
      ↔ opt ∈ vis ∨ ∃ l ∈ (dedupWalk vis s).1, l.dir.opt = opt := by
  induction s generalizing vis with
  | nil => simp [dedupWalk]
  | cons x rest ih =>
      by_cases hacc : accumOpt x.dir.opt
      · have h1 := dedupWalk_cons_accum vis x rest hacc
        rw [h1.1, h1.2, ih vis]
        constructor
        · rintro (hv | ⟨l, hl, hlo⟩)
          · exact Or.inl hv
          · exact Or.inr ⟨l, by simp [hl], hlo⟩
        · rintro (hv | ⟨l, hl, hlo⟩)
          · exact Or.inl hv
          · rcases List.mem_cons.1 hl with he | hm
            · subst he
              rw [hlo] at hacc
              rw [ha] at hacc
              cases hacc
            · exact Or.inr ⟨l, hm, hlo⟩
      · rw [Bool.not_eq_true] at hacc
        by_cases hv : x.dir.opt ∈ vis
        · rw [dedupWalk_cons_seen vis x rest hacc hv, ih vis]
        · have h1 := dedupWalk_cons_new vis x rest hacc hv
          rw [h1.1, h1.2, ih (x.dir.opt :: vis)]
          constructor
          · rintro (hv2 | ⟨l, hl, hlo⟩)
            · rcases List.mem_cons.1 hv2 with he | hm
              · exact Or.inr ⟨x, by simp, he.symm⟩
              · exact Or.inl hm
            · exact Or.inr ⟨l, by simp [hl], hlo⟩
          · rintro (hv2 | ⟨l, hl, hlo⟩)
            · exact Or.inl (by simp [hv2])
            · rcases List.mem_cons.1 hl with he | hm
              · exact Or.inl (by simp [he ▸ hlo.symm])
              · exact Or.inr ⟨l, hm, hlo⟩

theorem dedupWalk_nil_iff (s : List Line) :
    (dedupWalk [] s).1 = [] ↔ s = [] := by
  constructor
  · intro h
    cases s with
    | nil => rfl
    | cons x rest =>
        by_cases hacc : accumOpt x.dir.opt
        · rw [(dedupWalk_cons_accum [] x rest hacc).1] at h
          cases h
        · rw [Bool.not_eq_true] at hacc
          rw [(dedupWalk_cons_new [] x rest hacc (by simp)).1] at h
          cases h
  · intro h
    rw [h]
    rfl

/-! ### attach on a fresh simple name -/

theorem shlexGo_hostname (r : List Char) :
    shlexGo .ws [] false
        ('H' :: 'o' :: 's' :: 't' :: 'n' :: 'a' :: 'm' :: 'e' :: ' ' :: r)
      = "Hostname".toList :: shlexGo .ws [] false r := rfl

theorem shlexSplit_hostname (host : String) :
    shlexSplit ("Hostname " ++ host)
      = "Hostname" :: (shlexGo .ws [] false host.toList).map String.mk := by
  have hl : ("Hostname " ++ host).toList
      = 'H' :: 'o' :: 's' :: 't' :: 'n' :: 'a' :: 'm' :: 'e' :: ' '
          :: host.toList := rfl
  rw [shlexSplit, hl, shlexGo_hostname]
  rfl

theorem parseDirective_hostname (host : String) :
    (parseDirective ("Hostname " ++ host)).opt = "hostname" := by
  have hfind : pyFind "Hostname" '=' = none := by decide
  simp only [parseDirective, shlexSplit_hostname, hfind, Directive.opt]
  rfl

theorem addHostMiss_store (c : Config) (hosts : List String)
    (lines : List BlkLine) (cm : String) :
    (addHostMiss c hosts lines cm).1.store
      = c.store ++ [(c.next_no, missBlk c hosts lines cm)] := by
  simp only [addHostMiss]
  rw [push_blk_store]
  rfl

theorem addHostMiss_host_map_single (c : Config) (name : String)
    (lines : List BlkLine) (cm : String)
    (hbang : headIs name '!' = false)
    (hstar : name.toList.contains '*' = false) :
    (addHostMiss c [name] lines cm).1.host_map
      = hmAppend c.host_map name c.next_no := by
  have hstar2 : '*' ∉ name.data := by simpa using hstar
  simp [addHostMiss, push_blk, pushIndex, hbang, hstar2, missBlk]

theorem addHostMiss_wildcards_single (c : Config) (name : String)
    (lines : List BlkLine) (cm : String)
    (hbang : headIs name '!' = false)
    (hstar : name.toList.contains '*' = false) :
    (addHostMiss c [name] lines cm).1.wildcards = c.wildcards := by
  have hstar2 : '*' ∉ name.data := by simpa using hstar
  simp [addHostMiss, push_blk, pushIndex, hbang, hstar2, missBlk]

theorem mem_alookup_getD_flatMap (hm : List (String × List Nat)) (k : String)
    (x : Nat) (hx : x ∈ (alookup hm k).getD []) :
    x ∈ hm.flatMap Prod.snd := by
  induction hm with
  | nil => simp [alookup] at hx
  | cons kv rest ih =>
      obtain ⟨k0, v0⟩ := kv
      by_cases hk : k0 = k
      · simp only [alookup, if_pos hk, Option.getD_some] at hx
        simp [hx]
      · simp only [alookup, if_neg hk] at hx
        simp [ih hx]

theorem filterMap_map_some {α β : Type} (w : List α) (g : α → β)
    (F : β → Option α) (hF : ∀ l, F (g l) = some l) :
    List.filterMap F (w.map g) = w := by
  induction w with
  | nil => rfl
  | cons a t ih => simp [List.filterMap_cons, hF, ih]

/-- C2 amended: attach(N, N) is a no-op, and for a fresh alias N —
no block of the configuration yields any directive for N, N carries no
glob characters and is not negated, and the payload is not already
cached — attach(N, H) makes query(N) yield exactly the (opt, values)
set of query(H), plus the pair of the directive parsed from
"Hostname H" exactly when query(H) yields no hostname directive. -/
theorem attach_fresh_query (c : Config) (name host : String)
    (hwf : ConfigWF c) (hne : name ≠ host)
    (hfresh : queryRaw c name = [])
    (hbang : headIs name '!' = false)
    (hstar : name.toList.contains '*' = false)
    (hcache : alookup c.ext_cache (attachKey c name host) = none) :
    dirFinset (query (attach c name host) name)
      = dirFinset (query (attach c name host) host)
        ∪ (if ∀ l ∈ query (attach c name host) host, l.dir.opt ≠ "hostname"
           then {dirKey (parseDirective ("Hostname " ++ host))}
           else (∅ : Finset (String × List String)))
    ∧ attach c name name = c := by
  refine ⟨?_, by simp [attach]⟩
  have hc2 : alookup c.ext_cache
      ((attachLines c name host).map blkLineStr) = none := hcache
  have hAtt : attach c name host
      = (addHostMiss c [name] (attachLines c name host)
          ("inherits from " ++ host)).1 := by
    simp only [attach, if_neg hne, add_host, hc2]
  set A := attach c name host with hA
  set B := missBlk c [name] (attachLines c name host)
    ("inherits from " ++ host) with hB
  have hstoreA : A.store = c.store ++ [(c.next_no, B)] := by
    rw [hAtt, addHostMiss_store]
  have hhmA : A.host_map = hmAppend c.host_map name c.next_no := by
    rw [hAtt, addHostMiss_host_map_single _ _ _ _ hbang hstar]
  have hwildA : A.wildcards = c.wildcards := by
    rw [hAtt, addHostMiss_wildcards_single _ _ _ _ hbang hstar]
  have hltKeys : ∀ kv ∈ c.store, kv.1 ≠ c.next_no := by
    intro kv hm
    have hmem : kv.1 ∈ allNos c := by
      have : kv.1 ∈ storeKeys c := List.mem_map.2 ⟨kv, hm, rfl⟩
      simp only [allNos, List.mem_append]
      tauto
    have := hwf.2.1 kv.1 hmem
    omega
  have hgetA_stable : ∀ x, x ≠ c.next_no → getBlk A x = getBlk c x := by
    intro x hx
    rw [getBlk, getBlk, hstoreA, alookup_append_single_ne _ _ _ _ hx]
  have hgetA_n : getBlk A c.next_no = B := by
    rw [getBlk, hstoreA,
      alookup_append_none _ _ _ (alookup_eq_none _ _ hltKeys)]
    simp [alookup]
  have hwlt : ∀ x ∈ c.wildcards, x < c.next_no := by
    intro x hx
    apply hwf.2.1
    simp only [allNos, List.mem_append]
    tauto
  have hexlt : ∀ (k : String), ∀ x ∈ (alookup c.host_map k).getD [],
      x < c.next_no := by
    intro k x hx
    apply hwf.2.1
    have := mem_alookup_getD_flatMap c.host_map k x hx
    simp only [allNos, List.mem_append]
    tauto
  have hmatlt : ∀ (k : String), ∀ x ∈ matchedNos c k, x < c.next_no := by
    intro k x hx
    rcases List.mem_append.1 (List.mem_dedup.1 hx) with h1 | h2
    · exact hexlt k x h1
    · exact hwlt x (List.mem_filter.1 h2).1
  have hexactH : alookup A.host_map host = alookup c.host_map host := by
    rw [hhmA]
    exact hmAppend_alookup_other _ _ _ _ (fun e => hne e.symm)
  have hmatchedH : matchedNos A host = matchedNos c host := by
    simp only [matchedNos, hexactH, hwildA]
    congr 2
    apply List.filter_congr
    intro x hx
    rw [hgetA_stable x (by have := hwlt x hx; omega)]
  have hsortH : sortedMatched A host = sortedMatched c host := by
    simp only [sortedMatched, hmatchedH]
    apply insSort_congr
    intro a ha b hb
    have hna : a ≠ c.next_no := by have := hmatlt host a ha; omega
    have hnb : b ≠ c.next_no := by have := hmatlt host b hb; omega
    simp only [blkKey, hgetA_stable a hna, hgetA_stable b hnb]
  have hstreamH : stream A host = stream c host := by
    simp only [stream, hsortH]
    apply flatMap_congr
    intro x hx
    have hxm : x ∈ matchedNos c host := (insSort_perm _ _).mem_iff.1 hx
    rw [hgetA_stable x (by have := hmatlt host x hxm; omega)]
  have hqH : queryRaw A host = queryRaw c host := by
    simp only [queryRaw, hstreamH]
  have hvisH : visOf A host = visOf c host := by
    simp only [visOf, hstreamH]
  have hexactN : alookup A.host_map name
      = some ((alookup c.host_map name).getD [] ++ [c.next_no]) := by
    rw [hhmA]
    exact hmAppend_alookup_self _ _ _
  have hwildN : A.wildcards.filter (fun no => (getBlk A no).test name)
      = c.wildcards.filter (fun no => (getBlk c no).test name) := by
    rw [hwildA]
    apply List.filter_congr
    intro x hx
    rw [hgetA_stable x (by have := hwlt x hx; omega)]
  have hmatchedN : matchedNos A name
      = (((alookup c.host_map name).getD [] ++ [c.next_no])
          ++ c.wildcards.filter (fun no => (getBlk c no).test name)).dedup := by
    simp only [matchedNos, hexactN, hwildN, Option.getD_some]
  have hsnil : stream c name = [] := (dedupWalk_nil_iff _).1 hfresh
  have htrimnil : ∀ x ∈ sortedMatched c name, (getBlk c x).trimmed = [] :=
    List.flatMap_eq_nil_iff.1 hsnil
  have hnodupN : (sortedMatched A name).Nodup :=
    ((insSort_perm _ _).nodup_iff).2 (List.nodup_dedup _)
  have hmemN : c.next_no ∈ sortedMatched A name := by
    apply (insSort_perm _ _).mem_iff.2
    rw [hmatchedN]
    apply List.mem_dedup.2
    simp
  have hothersN : ∀ x ∈ sortedMatched A name, x ≠ c.next_no →
      (getBlk A x).trimmed = [] := by
    intro x hx hxn
    have hx2 : x ∈ matchedNos A name := (insSort_perm _ _).mem_iff.1 hx
    rw [hmatchedN] at hx2
    have hx3 := List.mem_dedup.1 hx2
    have hx4 : x ∈ matchedNos c name := by
      apply List.mem_dedup.2
      rcases List.mem_append.1 hx3 with h1 | h2
      · rcases List.mem_append.1 h1 with h1a | h1b
        · exact List.mem_append.2 (Or.inl h1a)
        · simp at h1b
          exact absurd h1b hxn
      · exact List.mem_append.2 (Or.inr h2)
    rw [hgetA_stable x hxn]
    exact htrimnil x ((insSort_perm _ _).mem_iff.2 hx4)
  have hstreamN : stream A name = (getBlk A c.next_no).trimmed := by
    simp only [stream]
    exact flatMap_single _ _ _ hnodupN hmemN hothersN
  have hlines : attachLines c name host
      = (queryRaw c host).map BlkLine.lin
        ++ (if "hostname" ∈ visOf c host then []
            else [BlkLine.raw ("Hostname " ++ host)]) := by
    simp only [attachLines, hfresh]
    simp
  have hBtrim : B.trimmed
      = queryRaw c host
        ++ (if "hostname" ∈ visOf c host then []
            else [⟨directiveStr (parseDirective ("Hostname " ++ host)),
                   c.next_no, parseDirective ("Hostname " ++ host)⟩]) := by
    have hBlines : B.lines = attachLines c name host := rfl
    have hBno : B.no = c.next_no := rfl
    rw [Block.trimmed, hBlines, hlines, List.filterMap_append]
    congr 1
    · exact filterMap_map_some _ _ _ (fun l => rfl)
    · by_cases hH : "hostname" ∈ visOf c host
      · simp [hH]
      · simp only [hH, if_false]
        simp only [List.filterMap]
        rw [hBno]
        have hopt := parseDirective_hostname host
        simp [hopt]
  have hpairIdem : dedupWalk [] (queryRaw c host)
      = (queryRaw c host, visOf c host) := by
    have := dedupWalk_idem [] (stream c host)
    rw [queryRaw, visOf]
    rw [this]
  by_cases hH : "hostname" ∈ visOf c host
  · have hQN : queryRaw A name = queryRaw c host := by
      rw [queryRaw, hstreamN, hgetA_n, hBtrim]
      simp only [hH, if_pos, List.append_nil]
      rw [hpairIdem]
    have hcond : ¬ (∀ l ∈ query A host, l.dir.opt ≠ "hostname") := by
      intro hall
      have hex : ∃ l ∈ queryRaw c host, l.dir.opt = "hostname" := by
        have := (dedupWalk_vis_mem [] (stream c host) "hostname"
          (by decide)).1 hH
        simpa [queryRaw] using this
      obtain ⟨l, hl, hlo⟩ := hex
      have hlq : l ∈ query A host := by
        apply (insSort_perm _ _).mem_iff.2
        rw [hqH]
        exact hl
      exact hall l hlq hlo
    rw [if_neg hcond, Finset.union_empty]
    have h1 : dirFinset (query A name) = dirFinset (queryRaw A name) :=
      perm_toFinset ((insSort_perm _ _).map _)
    have h2 : dirFinset (query A host) = dirFinset (queryRaw A host) :=
      perm_toFinset ((insSort_perm _ _).map _)
    rw [h1, h2, hQN, hqH]
  · have hQN : queryRaw A name
        = queryRaw c host
          ++ [⟨directiveStr (parseDirective ("Hostname " ++ host)),
               c.next_no, parseDirective ("Hostname " ++ host)⟩] := by
      rw [queryRaw, hstreamN, hgetA_n, hBtrim]
      simp only [hH, if_false]
      rw [(dedupWalk_append [] (queryRaw c host) _).1, hpairIdem]
      have hopt := parseDirective_hostname host
      have hacc : accumOpt (Line.dir
          ⟨directiveStr (parseDirective ("Hostname " ++ host)), c.next_no,
            parseDirective ("Hostname " ++ host)⟩).opt = false := by
        simp [Line.dir, hopt, accumOpt]
      have hnv : (Line.dir
          ⟨directiveStr (parseDirective ("Hostname " ++ host)), c.next_no,
            parseDirective ("Hostname " ++ host)⟩).opt ∉ visOf c host := by
        simp [Line.dir, hopt, hH]
      rw [(dedupWalk_cons_new _ _ _ hacc hnv).1]
      simp [dedupWalk]
    have hcond : ∀ l ∈ query A host, l.dir.opt ≠ "hostname" := by
      intro l hl hlo
      have hl2 : l ∈ queryRaw c host := by
        rw [← hqH]
        exact (insSort_perm _ _).mem_iff.1 hl
      have : "hostname" ∈ visOf c host := by
        apply (dedupWalk_vis_mem [] (stream c host) "hostname"
          (by decide)).2
        exact Or.inr ⟨l, hl2, hlo⟩
      exact hH this
    rw [if_pos hcond]
    have h1 : dirFinset (query A name) = dirFinset (queryRaw A name) :=
      perm_toFinset ((insSort_perm _ _).map _)
    have h2 : dirFinset (query A host) = dirFinset (queryRaw A host) :=
      perm_toFinset ((insSort_perm _ _).map _)
    rw [h1, h2, hQN, hqH]
    simp only [dirFinset, List.map_append, List.toFinset_append]
    congr 1

/-- C2 counterexample: with an existing block Host n carrying Port 5,
after attach("n", "h") the pair set of query("n") keeps the Port 5
directive that query("h") does not yield, so the claimed set equality
fails. -/
theorem attach_not_query_equal :
    dirFinset (query (attach cxConf "n" "h") "n")
      ≠ dirFinset (query (attach cxConf "n" "h") "h")
        ∪ (if ∀ l ∈ query (attach cxConf "n" "h") "h",
              l.dir.opt ≠ "hostname"
           then {dirKey (parseDirective ("Hostname " ++ "h"))}
           else (∅ : Finset (String × List String))) := by
  decide

/-- C2 witness: the theorem applied to a one-host document and the
fresh alias n. -/
theorem attach_fresh_query_witness :
    (ConfigWF c2Conf ∧ ("n" : String) ≠ "h" ∧ queryRaw c2Conf "n" = []
      ∧ headIs "n" '!' = false ∧ "n".toList.contains '*' = false
      ∧ alookup c2Conf.ext_cache (attachKey c2Conf "n" "h") = none)
    ∧ (dirFinset (query (attach c2Conf "n" "h") "n")
        = dirFinset (query (attach c2Conf "n" "h") "h")
          ∪ (if ∀ l ∈ query (attach c2Conf "n" "h") "h",
                l.dir.opt ≠ "hostname"
             then {dirKey (parseDirective ("Hostname " ++ "h"))}
             else (∅ : Finset (String × List String)))
       ∧ attach c2Conf "n" "n" = c2Conf) :=
  ⟨⟨by decide, by decide, by decide, by decide, by decide, by decide⟩,
    attach_fresh_query c2Conf "n" "h" (by decide) (by decide) (by decide)
      (by decide) (by decide) (by decide)⟩

/-! ## Claims: concrete scenarios -/

/-- C5: the claim says a KEY=VALUE first token contributes the shell
tokens of VALUE before the remaining tokens.  The code truncates `opt`
to KEY first and then slices the truncated string, so the VALUE tokens
are always dropped: on "User=root extra" the parsed values are
["extra"], not ["root", "extra"].  The spec states the intent; the code
is a slip. -/
theorem directive_eq_value_dropped :
    parseDirective "User=root extra" = ⟨"User", ["extra"]⟩
    ∧ (parseDirective "User=root extra").opt = "user"
    ∧ (parseDirective "User=root extra").values ≠ ["root", "extra"] := by
  decide

/-- C6: the claim says a block appears at most once in the wildcard
list.  `_push_blk` resets its `has_wildcards` guard inside the
per-pattern loop, so a block declaring two wildcard patterns is appended
twice: parsing "Host a* b*" lists block 1 twice. -/
theorem wildcard_double_listing :
    (parseConfig ["Host a* b*", "\tUser u"]).wildcards = [0, 1, 1]
    ∧ (parseConfig ["Host a* b*", "\tUser u"]).wildcards.count 1 = 2 := by
  decide

/-- C3: in the two-hop scenario (zones A=[a], B=[b], C=[c], arcs
A --b--> cost 20 and B --c--> cost 20, source A), trace("c") returns
["b","c"], resolve("c") returns ("c","b"), and inject produces for c an
attach of c to itself (a no-op, shown separately) plus a synthetic block
for c whose payload is the single line "ProxyJump b". -/
theorem twoHop_route_trace_resolve_inject :
    twoHopGraph.isSome = true
    ∧ (zsTrace twoHopRouted "c").map Prod.fst = some (some ["b", "c"])
    ∧ zsResolve twoHopRouted "c" = some ("c", "b")
    ∧ attach emptyConf "c" "c" = emptyConf
    ∧ twoHopInjected.ext_blks.map
        (fun no => ((getBlk twoHopInjected no).hosts, (getBlk twoHopInjected no).lines))
      = [(["c"], [BlkLine.raw "ProxyJump b"])] := by
  decide

/-- C7 counterexample: in the alias-elision scenario as literally
described (A=[a:a2:a2 aliases], arc from A via a2 to declared target B,
arc from B via c, source A), the reconstructed path for c is not
["b","c"]: the trace yields no path at all. -/
theorem alias_scenario_counterexample :
    (zsTrace aliasRouted "c").map Prod.fst = some none
    ∧ (zsTrace aliasRouted "c").map Prod.fst ≠ some (some ["b", "c"]) := by
  decide

/-- C7 amended: the arc from A does go through the lazily created alias
node a2, whose single outgoing arc targets the canonical host a and is
marked alias — the declared target zone B is ignored by ZoneSet.arc for
an alias via — so b and c stay unreachable (dist = INF) and the path for
c is undefined. -/
theorem alias_scenario_amended :
    alookup aliasRouted.names "a2" = some 6
    ∧ (getNode aliasRouted 6).adj = [⟨1, 0, true⟩]
    ∧ (getNode aliasRouted 6).zone = some 0
    ∧ (getNode aliasRouted 0).adj = [⟨1, 10, false⟩, ⟨6, 20, false⟩]
    ∧ (getNode aliasRouted ((alookup aliasRouted.names "b").getD 99)).dist = INF
    ∧ (getNode aliasRouted ((alookup aliasRouted.names "c").getD 99)).dist = INF
    ∧ (zsTrace aliasRouted "c").map Prod.fst = some none := by
  decide

/-- C8 counterexample: the claim says a run with an output file also
skips when the output is newer than all inputs and the state key is
unchanged.  At dt = 10 seconds with output newer and state equal, the
spec-side gate says skip but luna.py main regenerates: it implements
only the 2-second mtime check and no state file. -/
theorem main_gating_counterexample :
    specSkips true 10 true true = true
    ∧ mainDecision false true 10 = MainAction.generateWrite := by
  decide

/-- C8 amended: after the lock is acquired, a contended wait previews;
otherwise the run skips if and only if the output exists and its mtime
is within 2 seconds of now; in every other case it regenerates (into a
buffer written only at the end).  No state file is consulted. -/
theorem main_gating_amended (waited outExists : Bool) (dt : ℚ) :
    (mainDecision waited outExists dt = .previewWaited ↔ waited = true)
    ∧ (mainDecision waited outExists dt = .skipFresh
        ↔ waited = false ∧ outExists = true ∧ dt ≤ 2)
    ∧ (mainDecision waited outExists dt = .generateWrite
        ↔ waited = false ∧ (outExists = false ∨ ¬ dt ≤ 2)) := by
  cases waited <;> cases outExists <;> by_cases h : dt ≤ 2 <;>
    simp [mainDecision, h]

/-- C4: a zone is a Dijkstra source iff the timezone constraint holds
(unspecified, or the current UTC offset in seconds equals
timezone * 3600) and the subnet constraint holds (empty list, or at
least one listed CIDR matches the probe) — an OR over the subnets. -/
theorem in_zone_iff {α : Type} (check : α → Bool) (now : ℤ) (tz : Option ℚ)
    (subnets : List α) :
    in_zone check now tz subnets = true ↔
      (tz = none ∨ ∃ t, tz = some t ∧ (now : ℚ) = t * 3600)
      ∧ (subnets = [] ∨ ∃ s ∈ subnets, check s = true) := by
  cases tz with
  | none =>
      cases subnets with
      | nil => simp [in_zone]
      | cons a l => simp [in_zone, List.any_eq_true]
  | some t =>
      by_cases h : (now : ℚ) = t * 3600
      · cases subnets with
        | nil => simp [in_zone, h]
        | cons a l => simp [in_zone, h, List.any_eq_true]
      · cases subnets with
        | nil => simp [in_zone, h]
        | cons a l => simp [in_zone, h, List.any_eq_true]

/-- The document for the C1 witness. -/
def c1Conf : Config :=
  parseConfig ["User a", "Host h", "  User b", "  IdentityFile f1",
    "  IdentityFile f2"]

/-- C1: for every parsed configuration and host, query yields at most
one line per non-accumulative lowercased option; the yielded line is the
first occurrence in the walk that visits synthetic blocks first and then
ascends by block ordinal (the stream); and the accumulative options
identityfile/certificatefile are yielded at every occurrence, in their
order of occurrence across the walked blocks. -/
theorem query_first_occurrence (c : Config) (host opt : String)
    (h : accumOpt opt = false) :
    ((query c host).countP (fun l => l.dir.opt == opt)) ≤ 1
    ∧ (∀ l ∈ query c host, l.dir.opt = opt →
        (stream c host).find? (fun x => x.dir.opt == opt) = some l)
    ∧ (queryRaw c host).filter (fun l => accumOpt l.dir.opt)
        = (stream c host).filter (fun l => accumOpt l.dir.opt) := by
  have hperm : (query c host).Perm (queryRaw c host) := insSort_perm _ _
  refine ⟨?_, ?_, ?_⟩
  · rw [List.Perm.countP_eq _ hperm]
    exact dedupWalk_countP [] (stream c host) opt h
  · intro l hl hlo
    have hl2 : l ∈ queryRaw c host := hperm.mem_iff.1 hl
    have h3 := (dedupWalk_mem_find [] (stream c host) l hl2
      (by rw [hlo]; exact h)).2
    rw [hlo] at h3
    exact h3
  · exact dedupWalk_filter_accum [] (stream c host)

/-- C1 witness: the theorem applied to a concrete document and the
option "user". -/
theorem query_first_occurrence_witness :
    accumOpt "user" = false
    ∧ (((query c1Conf "h").countP (fun l => l.dir.opt == "user")) ≤ 1
       ∧ (∀ l ∈ query c1Conf "h", l.dir.opt = "user" →
            (stream c1Conf "h").find? (fun x => x.dir.opt == "user")
              = some l)
       ∧ (queryRaw c1Conf "h").filter (fun l => accumOpt l.dir.opt)
           = (stream c1Conf "h").filter (fun l => accumOpt l.dir.opt)) :=
  ⟨by decide, query_first_occurrence c1Conf "h" "user" (by decide)⟩

/-- The witness environment for C9: one pass, which aborts. -/
def envW : Environment :=
  ⟨[fun _ _ => .abort "X"], [("k", ("v0", some 0))]⟩

/-- C9: a lookup of a key materialised at pass index n replays exactly
the passes added since (the drop-n suffix of the pass list); when that
replay aborts with r, the lookup returns r, the key's entry becomes
(r, none), and after any further sequence of add_pass, lookups, and
assignments to other keys, a lookup of the key still returns r with the
environment unchanged — no pass, not even one added later, is applied
again. -/
theorem env_passes_and_abort (e : Environment) (k v : String) (n : Nat)
    (h : alookup e.args k = some (v, some n)) :
    (∃ e2, envGet e k
        = some ((run_passes k v (e.passes.drop n)).1, e2))
    ∧ ∀ r, run_passes k v (e.passes.drop n) = (r, false) →
        ∃ e2, envGet e k = some (r, e2)
          ∧ alookup e2.args k = some (r, none)
          ∧ ∀ ops : List EnvOp, (∀ op ∈ ops, opSetsKey op k = false) →
              alookup (execOps e2 ops).args k = some (r, none)
              ∧ envGet (execOps e2 ops) k = some (r, execOps e2 ops) := by
  constructor
  · have hh : ∃ e2, envGet e k = some ((run_passes k v (e.passes.drop n)).1, e2) := by
      simp only [envGet, h]
      exact ⟨_, rfl⟩
    exact hh
  · intro r hab
    refine ⟨{e with args := aset e.args k (r, none)}, ?_, ?_, ?_⟩
    · simp [envGet, h, hab]
    · exact aset_alookup_self _ _ _
    · intro ops hops
      have hbase : alookup
          ({e with args := aset e.args k (r, none)} : Environment).args k
          = some (r, none) := aset_alookup_self _ _ _
      have h1 := execOps_preserves_aborted _ k r ops hbase hops
      exact ⟨h1, by simp [envGet, h1]⟩

/-- C9 witness: the theorem applied to the one-pass aborting
environment. -/
theorem env_passes_and_abort_witness :
    alookup envW.args "k" = some ("v0", some 0)
    ∧ ((∃ e2, envGet envW "k"
          = some ((run_passes "k" "v0" (envW.passes.drop 0)).1, e2))
       ∧ ∀ r, run_passes "k" "v0" (envW.passes.drop 0) = (r, false) →
          ∃ e2, envGet envW "k" = some (r, e2)
            ∧ alookup e2.args "k" = some (r, none)
            ∧ ∀ ops : List EnvOp, (∀ op ∈ ops, opSetsKey op "k" = false) →
                alookup (execOps e2 ops).args "k" = some (r, none)
                ∧ envGet (execOps e2 ops) "k" = some (r, execOps e2 ops)) :=
  ⟨by decide, env_passes_and_abort envW "k" "v0" 0 (by decide)⟩

/-- C10 counterexample: from a state whose cache already holds the
payload under comment "a", two identical add_host calls with comment "b"
are not idempotent: the second call appends a duplicate "; b" to the
block comment, so the configurations after one and after two calls
differ. -/
theorem add_host_not_idempotent :
    (getBlk ahTwice.1 1).comment = "a; b"
    ∧ (getBlk ahThrice.1 1).comment = "a; b; b"
    ∧ ahThrice ≠ ahTwice := by
  decide

/-- C10 amended: add_host is idempotent whenever the comment argument is
empty or the first call leaves the block's comment equal to it (in
particular from any state whose cached block for the payload carries no
conflicting comment): the second identical call returns the same block
ordinal and leaves the configuration — block list, headers, hosts,
lines, comments and exact-host index — unchanged. -/
theorem add_host_idempotent (c : Config) (hosts : List String)
    (lines : List BlkLine) (comment : String) (hwf : ConfigWF c)
    (hc : comment = "" ∨
      (getBlk (add_host c hosts lines comment).1
        (add_host c hosts lines comment).2).comment = comment) :
    add_host (add_host c hosts lines comment).1 hosts lines comment
      = add_host c hosts lines comment := by
  cases hcache : alookup c.ext_cache (lines.map blkLineStr) with
  | some n =>
      have h1 : add_host c hosts lines comment
          = addHostHit c n hosts comment := by
        simp [add_host, hcache]
      have hnall : n ∈ allNos c := by
        have hm : n ∈ c.ext_cache.map Prod.snd :=
          alookup_some_mem_snd _ _ _ hcache
        simp only [allNos, List.mem_append]
        tauto
      have hnkeys : n ∈ storeKeys c := hwf.2.2 n hnall
      obtain ⟨b0, hb0⟩ := mem_keys_alookup _ _ hnkeys
      have hstore1 : (addHostHit c n hosts comment).1.store
          = updateStore c.store n (addHostHitBlk c n hosts comment) :=
        addHostHit_store c n hosts comment
      have hlook : alookup (addHostHit c n hosts comment).1.store n
          = some (addHostHitBlk c n hosts comment) := by
        rw [hstore1]
        exact alookup_updateStore_self _ _ _ ⟨b0, hb0⟩
      have hstable : ∀ kv ∈ (addHostHit c n hosts comment).1.store,
          kv.1 = n → kv.2 = addHostHitBlk c n hosts comment := by
        rw [hstore1]
        exact updateStore_mem_val _ _ _
      have hcache2 : alookup (addHostHit c n hosts comment).1.ext_cache
          (lines.map blkLineStr) = some n := by
        rw [addHostHit_ext_cache]
        exact hcache
      have hhostsB : ∀ h ∈ hosts,
          h ∈ (addHostHitBlk c n hosts comment).hosts :=
        addHostHitBlk_hosts c n hosts comment
      have hcomB : commentMerge (addHostHitBlk c n hosts comment) comment
          = addHostHitBlk c n hosts comment := by
        rcases hc with hce | hcc
        · simp [commentMerge, hce]
        · rw [h1, addHostHit_snd] at hcc
          have hgB : getBlk (addHostHit c n hosts comment).1 n
              = addHostHitBlk c n hosts comment := by
            simp [getBlk, hlook]
          rw [hgB] at hcc
          simp only [commentMerge]
          by_cases hcz : comment = ""
          · simp [hcz]
          · rw [if_pos (by simpa using hcz)]
            rw [if_neg (fun hand => hand.2 hcc)]
            exact Block_eta_comment _ _ hcc
      rw [h1]
      have h2 : add_host (addHostHit c n hosts comment).1 hosts lines comment
          = addHostHit (addHostHit c n hosts comment).1 n hosts comment := by
        simp [add_host, hcache2]
      rw [h2]
      exact addHostHit_noop _ n hosts comment _ hlook hstable hhostsB hcomB
  | none =>
      have h1 : add_host c hosts lines comment
          = addHostMiss c hosts lines comment := by
        simp [add_host, hcache]
      have hsnd : (addHostMiss c hosts lines comment).2 = c.next_no := rfl
      have hstore1 : (addHostMiss c hosts lines comment).1.store
          = c.store ++ [(c.next_no, missBlk c hosts lines comment)] := by
        simp only [addHostMiss]
        rw [push_blk_store]
        rfl
      have hec : (addHostMiss c hosts lines comment).1.ext_cache
          = c.ext_cache ++ [(lines.map blkLineStr, c.next_no)] := by
        simp only [addHostMiss]
        rw [push_blk_ext_cache]
        rfl
      have hkeys_lt : ∀ kv ∈ c.store, kv.1 ≠ c.next_no := by
        intro kv hm
        have hmem : kv.1 ∈ allNos c := by
          have : kv.1 ∈ storeKeys c := List.mem_map.2 ⟨kv, hm, rfl⟩
          simp only [allNos, List.mem_append]
          tauto
        have := hwf.2.1 kv.1 hmem
        omega
      have hlooknone : alookup c.store c.next_no = none :=
        alookup_eq_none _ _ hkeys_lt
      have hlook : alookup (addHostMiss c hosts lines comment).1.store
          c.next_no = some (missBlk c hosts lines comment) := by
        rw [hstore1, alookup_append_none _ _ _ hlooknone]
        simp [alookup]
      have hstable : ∀ kv ∈ (addHostMiss c hosts lines comment).1.store,
          kv.1 = c.next_no → kv.2 = missBlk c hosts lines comment := by
        rw [hstore1]
        intro kv hm he
        rcases List.mem_append.1 hm with hm1 | hm2
        · exact absurd he (hkeys_lt kv hm1)
        · rw [List.mem_singleton] at hm2
          rw [hm2]
      have hcache2 : alookup (addHostMiss c hosts lines comment).1.ext_cache
          (lines.map blkLineStr) = some c.next_no := by
        rw [hec, alookup_append_none _ _ _ hcache]
        simp [alookup]
      have hhostsB : ∀ h ∈ hosts,
          h ∈ (missBlk c hosts lines comment).hosts := by
        intro h hh
        simpa [missBlk] using hh
      have hcomB : commentMerge (missBlk c hosts lines comment) comment
          = missBlk c hosts lines comment := by
        simp only [commentMerge]
        by_cases hcz : comment = ""
        · simp [hcz]
        · rw [if_pos (by simpa using hcz)]
          rw [if_neg (fun hand => hand.2 rfl)]
          exact Block_eta_comment _ _ rfl
      rw [h1]
      have h2 : add_host (addHostMiss c hosts lines comment).1 hosts lines
          comment = addHostHit (addHostMiss c hosts lines comment).1
            c.next_no hosts comment := by
        simp [add_host, hcache2]
      rw [h2]
      rw [addHostHit_noop _ c.next_no hosts comment _ hlook hstable hhostsB
        hcomB]
      rw [← hsnd]

/-- C10 amended witness: the theorem applied to the empty document with
a non-empty comment. -/
theorem add_host_idempotent_witness :
    ConfigWF emptyConf
    ∧ ("a" = "" ∨ (getBlk (add_host emptyConf ["x"] [.raw "Port 1"] "a").1
        (add_host emptyConf ["x"] [.raw "Port 1"] "a").2).comment = "a")
    ∧ add_host (add_host emptyConf ["x"] [.raw "Port 1"] "a").1 ["x"]
        [.raw "Port 1"] "a" = add_host emptyConf ["x"] [.raw "Port 1"] "a" :=
  ⟨by decide, Or.inr (by decide),
    add_host_idempotent emptyConf ["x"] [.raw "Port 1"] "a" (by decide)
      (Or.inr (by decide))⟩

end Luna
